import Mathlib

/-!
Verification of the FEDWatch dashboard data pipeline (`src/fed_dashboard.py`).

The pipeline is embedded shallowly:

* `fetch_fred_data` (lines 92–127) is modelled over an explicit HTTP outcome;
  `pandas.to_numeric(..., errors='coerce')` is modelled by `parseNumeric`.
* The fetch loop (lines 130–145) is `fetchLoop` / `pipelineData`.
* The merge/sort/forward-fill stage (lines 147–152) works on `DF`, a wide
  dataframe whose rows are association lists keyed by column name; dates are
  modelled as naturals, cell values as `Option ℚ` with `none` standing for
  pandas `NaN` (both "missing" and "absent").
* Derived metrics (lines 154–162, 211–220, 284–289, 327–331) produce float
  values that can be infinite, so their cells live in `PVal`, exact rationals
  extended with signed infinities and `NaN`, with IEEE-style arithmetic.
-/

namespace FedDashboard

/-- A float64 value as produced by the dashboard's arithmetic: an exact
rational, a signed infinity, or NaN.  pandas uses NaN as its missing-data
marker, so `PVal.nan` also denotes an absent cell.  Negative zero is
identified with zero (no modelled operation distinguishes them). -/
inductive PVal : Type
  | num (q : ℚ)
  | inf (pos : Bool)
  | nan
  deriving DecidableEq

/-- IEEE-style subtraction on `PVal`. -/
def psub : PVal → PVal → PVal
  | .num a, .num b => .num (a - b)
  | .num _, .inf s => .inf (!s)
  | .inf s, .num _ => .inf s
  | .inf s, .inf t => if s = t then .nan else .inf s
  | _, _ => .nan

/-- IEEE-style multiplication on `PVal` (zero times infinity is NaN). -/
def pmul : PVal → PVal → PVal
  | .num a, .num b => .num (a * b)
  | .num a, .inf s => if a = 0 then .nan else .inf (s = decide (0 < a))
  | .inf s, .num b => if b = 0 then .nan else .inf (s = decide (0 < b))
  | .inf s, .inf t => .inf (s = t)
  | _, _ => .nan

/-- IEEE-style division on `PVal`: a nonzero finite value divided by (plus)
zero is a signed infinity, zero divided by zero is NaN. -/
def pdiv : PVal → PVal → PVal
  | .num a, .num b =>
      if b = 0 then (if a = 0 then .nan else .inf (decide (0 < a)))
      else .num (a / b)
  | .num _, .inf _ => .num 0
  | .inf s, .num b => if b = 0 then .inf s else .inf (s = decide (0 < b))
  | .inf _, .inf _ => .nan
  | _, _ => .nan

/-- A pandas cell (`Option ℚ`, with `none` = NaN) as a float value. -/
def ofOpt : Option ℚ → PVal
  | none => .nan
  | some q => .num q

/-- The Python test `x != 0` on a float: true for NaN and infinities. -/
def pyNeZero : PVal → Bool
  | .num q => decide (q ≠ 0)
  | _ => true

/-- Digit list to natural number value. -/
def digitsToNat (l : List Char) : Nat :=
  l.foldl (fun acc c => acc * 10 + (c.toNat - Char.toNat '0')) 0

/-- Split a character list at the first '.', if any. -/
def splitDot : List Char → List Char × Option (List Char)
  | [] => ([], none)
  | c :: r =>
      if c = '.' then ([], some r)
      else
        let p := splitDot r
        (c :: p.1, p.2)

/-- Model of `pandas.to_numeric(..., errors='coerce')` on one value string,
restricted to plain decimal literals: an optional sign, then digits with at
most one decimal point and at least one digit overall.  Anything else — in
particular the FRED missing-value sentinel "." — coerces to NaN (`none`). -/
def parseNumeric (s : String) : Option ℚ :=
  let p : ℚ × List Char :=
    match s.data with
    | '-' :: r => (-1, r)
    | '+' :: r => (1, r)
    | l => (1, l)
  let q := splitDot p.2
  let ip := q.1
  let fp := q.2.getD []
  if ip.all Char.isDigit && fp.all Char.isDigit && !(ip.isEmpty && fp.isEmpty) then
    some (p.1 * ((digitsToNat ip : ℚ) + (digitsToNat fp : ℚ) / ((10 : ℚ) ^ fp.length)))
  else none

/-- The body of the HTTP response: a JSON object (whose `observations` key,
when present, holds a list of (date string, value string) pairs), or a body
on which `.json()` raises. -/
inductive Body : Type
  | jsonObs (observations : Option (List (String × String)))
  | notJson
  deriving DecidableEq

/-- The outcome of `requests.get`: the request raises (network failure) or a
response with a status code and body arrives. -/
inductive HttpOutcome : Type
  | netFailure
  | resp (status : Nat) (body : Body)
  deriving DecidableEq

/-- Model of `fetch_fred_data` (lines 92–127): a blank credential (the
Python test `not api_key or api_key.strip() == ""`, i.e. every character is
whitespace), network failure, an error status (`raise_for_status`), a
non-JSON body, a missing or empty `observations` list, and zero
numerically-parseable observations all yield `None`; otherwise the
observations whose value string parses are returned (dates kept as their
strings, assumed well-formed for `pd.to_datetime`).  All exceptions are
swallowed by the bare `except: return None`. -/
def fetch_fred_data (api_key : String) (outcome : HttpOutcome) :
    Option (List (String × ℚ)) :=
  if api_key.data.all (fun c => c.isWhitespace) then none
  else
    match outcome with
    | .netFailure => none
    | .resp status body =>
        if 400 ≤ status ∧ status < 600 then none
        else
          match body with
          | .notJson => none
          | .jsonObs obsOpt =>
              let observations := obsOpt.getD []
              if observations.isEmpty then none
              else
                let parsed := observations.filterMap
                  (fun o => (parseNumeric o.2).map (fun q => (o.1, q)))
                if parsed.isEmpty then none else some parsed

/-- The static label → FRED series identifier registry (lines 55–66). -/
def FRED_SERIES : List (String × String) :=
  [("Total Assets", "WALCL"),
   ("Treasury Securities", "TREAST"),
   ("Mortgage-Backed Securities", "WSHOMCB"),
   ("Bank Reserves", "WRBWFRBL"),
   ("Reverse Repo Foreign", "WLRRAFOIAL"),
   ("Central Bank Liquidity Swaps", "SWPT"),
   ("Loans", "WLCFLL"),
   ("Securities in Custody", "WFCDA"),
   ("Repo Operations", "WORAL"),
   ("Other Assets", "WAOAL")]

/-- The fetch result for one selected asset inside the loop (lines 134–136):
look its series identifier up and fetch with the network outcome attached to
that identifier. -/
def fetchOf (api_key : String) (outcomeOf : String → HttpOutcome)
    (asset_name : String) : Option (List (String × ℚ)) :=
  fetch_fred_data api_key (outcomeOf ((List.lookup asset_name FRED_SERIES).getD ""))

/-- One iteration of the fetch loop (lines 134–141): a successful,
non-empty dataframe is appended to `all_data` and counted, anything else
only produces a warning. -/
def fetchStep (api_key : String) (outcomeOf : String → HttpOutcome)
    (acc : List (List (String × ℚ)) × Nat) (asset_name : String) :
    List (List (String × ℚ)) × Nat :=
  match fetchOf api_key outcomeOf asset_name with
  | some df => if df.isEmpty then acc else (acc.1 ++ [df], acc.2 + 1)
  | none => acc

/-- The fetch loop (lines 130–141): every selected asset is attempted. -/
def fetchLoop (selected : List String) (outcomeOf : String → HttpOutcome)
    (api_key : String) : List (List (String × ℚ)) × Nat :=
  selected.foldl (fetchStep api_key outcomeOf) ([], 0)

/-- Lines 143–145: zero successful fetches is fatal (`st.stop()`); otherwise
the pipeline continues with the successful subset. -/
def pipelineData (selected : List String) (outcomeOf : String → HttpOutcome)
    (api_key : String) : Option (List (List (String × ℚ))) :=
  let r := fetchLoop selected outcomeOf api_key
  if r.2 = 0 then none else some r.1

/-- A wide dataframe: the date column (row keys, modelled as naturals) plus
the remaining columns; each row's cells form an association list keyed by
column name, in column order.  `none` is a NaN cell. -/
structure DF : Type where
  cols : List String
  rows : List (Nat × List (String × Option ℚ))
  deriving DecidableEq

/-- One fetched series: its column name and its (date, value) observations. -/
structure Series : Type where
  name : String
  obs : List (Nat × ℚ)
  deriving DecidableEq

/-- A fetched series as the two-column dataframe returned by
`fetch_fred_data`. -/
def toDF (s : Series) : DF :=
  ⟨[s.name], s.obs.map (fun p => (p.1, [(s.name, some p.2)]))⟩

/-- Does the frame have a row with this date? -/
def hasDate (df : DF) (d : Nat) : Bool :=
  df.rows.any (fun r => r.1 == d)

/-- The cells of the (first) row with the given date, if any. -/
def rowAt (df : DF) (d : Nat) : Option (List (String × Option ℚ)) :=
  (df.rows.find? (fun r => r.1 == d)).map (fun r => r.2)

/-- Model of `pd.merge(l, r, on='date', how='outer')` for frames with unique
date keys (a one-to-one join, which is what the per-series frames give):
every left row is extended with the matching right row's cells, or NaN cells
when the right frame lacks the date; right rows with unmatched dates are
appended with NaN cells for all left columns. -/
def mergeDF (l r : DF) : DF :=
  ⟨l.cols ++ r.cols,
   l.rows.map (fun x =>
     (x.1, x.2 ++ ((rowAt r x.1).getD (r.cols.map (fun c => (c, none))))))
   ++ (r.rows.filter (fun x => !hasDate l x.1)).map (fun x =>
     (x.1, l.cols.map (fun c => (c, none)) ++ x.2))⟩

/-- Insert one row into a date-sorted row list. -/
def insertRow (x : Nat × List (String × Option ℚ)) :
    List (Nat × List (String × Option ℚ)) → List (Nat × List (String × Option ℚ))
  | [] => [x]
  | y :: ys => if x.1 ≤ y.1 then x :: y :: ys else y :: insertRow x ys

/-- Model of `sort_values('date')` (with unique dates any sort gives the same
result, so insertion sort is used). -/
def sortRows : List (Nat × List (String × Option ℚ)) → List (Nat × List (String × Option ℚ))
  | [] => []
  | x :: xs => insertRow x (sortRows xs)

/-- One forward-fill step: a NaN cell takes the carried value of its column,
a present cell is kept.  `prev` is key-aligned with the row's cells. -/
def combineCells (cells prev : List (String × Option ℚ)) :
    List (String × Option ℚ) :=
  List.zipWith (fun c p => (c.1, if c.2.isSome then c.2 else p.2)) cells prev

/-- Model of `DataFrame.ffill()`: scan the rows downward carrying, for every
column, the last non-NaN value seen. -/
def ffillRows (prev : List (String × Option ℚ)) :
    List (Nat × List (String × Option ℚ)) → List (Nat × List (String × Option ℚ))
  | [] => []
  | x :: xs =>
      (x.1, combineCells x.2 prev) :: ffillRows (combineCells x.2 prev) xs

/-- `ffill` applied to a whole frame, starting with no carried values. -/
def ffillDF (df : DF) : DF :=
  ⟨df.cols, ffillRows (df.cols.map (fun c => (c, none))) df.rows⟩

/-- The raw outer-join fold of lines 148–150 (before sorting and filling). -/
def mergedRaw : List Series → DF
  | [] => ⟨[], []⟩
  | s :: ss => ss.foldl (fun acc t => mergeDF acc (toDF t)) (toDF s)

/-- Lines 147–152: outer-merge all fetched frames on date, sort by date,
forward-fill. -/
def fed_data (ss : List Series) : DF :=
  let m := mergedRaw ss
  ffillDF ⟨m.cols, sortRows m.rows⟩

/-- The value of the merged table at a (date, series) coordinate: `none` when
there is no row at that date, no such column, or the cell is NaN. -/
def getCell (df : DF) (t : Nat) (s : String) : Option ℚ :=
  match df.rows.find? (fun r => r.1 == t) with
  | none => none
  | some r =>
      match List.lookup s r.2 with
      | none => none
      | some v => v

/-- The most recently reported value of an (ascending-sorted) observation
list at or before time `t`; `none` when no observation exists at or before
`t`. -/
def lastLE : List (Nat × ℚ) → Nat → Option ℚ
  | [], _ => none
  | p :: rest, t =>
      if p.1 ≤ t then
        match lastLE rest t with
        | some v => some v
        | none => some p.2
      else lastLE rest t

/-- The last reported value strictly before time `t`. -/
def lastLT : List (Nat × ℚ) → Nat → Option ℚ
  | [], _ => none
  | p :: rest, t =>
      if p.1 < t then
        match lastLT rest t with
        | some v => some v
        | none => some p.2
      else lastLT rest t

/-- The column keys of a row's cells. -/
def keysOf (cells : List (String × Option ℚ)) : List String :=
  cells.map (fun c => c.1)

/-- The dates of a frame's rows. -/
def datesOf (df : DF) : List Nat :=
  df.rows.map (fun r => r.1)

/-- The series names of a fetched batch. -/
def namesOf (ss : List Series) : List String :=
  ss.map (fun s => s.name)

/-- The observation dates of one series. -/
def obsDates (s : Series) : List Nat :=
  s.obs.map (fun p => p.1)

/-- All observation dates across a batch of series. -/
def allDates : List Series → List Nat
  | [] => []
  | s :: ss => obsDates s ++ allDates ss

/-- The observations of the series with the given name (empty if absent). -/
def obsOfName (ss : List Series) (nm : String) : List (Nat × ℚ) :=
  ((ss.find? (fun s => s.name == nm)).map (fun s => s.obs)).getD []

/-- Input sanity for the merge stage, as guaranteed by the fetcher and the
spec's data model: series names are pairwise distinct and every series'
observations are strictly ascending in date. -/
def GoodInput (ss : List Series) : Prop :=
  (namesOf ss).Nodup ∧ ∀ s ∈ ss, List.Pairwise (fun a b => a.1 < b.1) s.obs

/-- Divide one column's cells by 1000, leaving NaN cells NaN (lines 157–158:
`display_data[col] = display_data[col] / 1000`). -/
def setColDiv (df : DF) (c : String) : DF :=
  ⟨df.cols,
   df.rows.map (fun r =>
     (r.1, r.2.map (fun cell =>
        if cell.1 = c then (cell.1, cell.2.map (fun q => q / 1000)) else cell)))⟩

/-- Lines 156–158: the loop over all non-date columns (the date column is
structurally separate from `cols`, matching the `col != 'date'` guard). -/
def scaleCols (df : DF) : DF :=
  df.cols.foldl setColDiv df

/-- Line 161: `reverse_series_mapping = {v: k for k, v in FRED_SERIES.items()}`. -/
def reverse_series_mapping : List (String × String) :=
  FRED_SERIES.map (fun p => (p.2, p.1))

/-- `DataFrame.rename` on one column name: mapped if present, else kept. -/
def renameCol (c : String) : String :=
  (List.lookup c reverse_series_mapping).getD c

/-- Line 162: rename all columns through the reversed registry. -/
def renameDF (df : DF) : DF :=
  ⟨df.cols.map renameCol,
   df.rows.map (fun r => (r.1, r.2.map (fun cell => (renameCol cell.1, cell.2))))⟩

/-- Lines 154–162: the display table. -/
def display_data (df : DF) : DF :=
  renameDF (scaleCols df)

/-- A dataframe whose cells are float values (used for the derived-metric
tables, which can contain infinities). -/
structure PDF : Type where
  cols : List String
  rows : List (Nat × List (String × PVal))
  deriving DecidableEq

/-- A plain frame viewed as a float frame. -/
def toPDF (df : DF) : PDF :=
  ⟨df.cols, df.rows.map (fun r => (r.1, r.2.map (fun cl => (cl.1, ofOpt cl.2))))⟩

/-- A cell of a float row, NaN when the column is missing. -/
def rowPCell (cells : List (String × PVal)) (s : String) : PVal :=
  (List.lookup s cells).getD .nan

/-- The value of a float frame at a (date, column) coordinate. -/
def getPCell (p : PDF) (t : Nat) (s : String) : PVal :=
  match p.rows.find? (fun r => r.1 == t) with
  | none => .nan
  | some r => rowPCell r.2 s

/-- Line 289 for one column `c`: append the column `c_pct` holding
`comp_data[c] / comp_data['Total Assets'] * 100` in float semantics. -/
def addPctCol (p : PDF) (c : String) : PDF :=
  ⟨p.cols ++ [c ++ "_pct"],
   p.rows.map (fun r =>
     (r.1, r.2 ++ [(c ++ "_pct",
        pmul (pdiv (rowPCell r.2 c) (rowPCell r.2 "Total Assets")) (.num 100))]))⟩

/-- Lines 284–289: the composition table, looping over the snapshot of the
display table's columns and skipping the total column (the `col != 'date'`
guard is again structural). -/
def comp_data (df : DF) : PDF :=
  df.cols.foldl
    (fun acc c => if c = "Total Assets" then acc else addPctCol acc c)
    (toPDF df)

/-- A column of a float frame, as the list of its cells in row order. -/
def colVals (p : PDF) (c : String) : List PVal :=
  p.rows.map (fun r => rowPCell r.2 c)

/-- A column of a plain frame, as float values in row order. -/
def colValsDF (df : DF) (c : String) : List PVal :=
  df.rows.map (fun r => ofOpt ((List.lookup c r.2).getD none))

/-- Model of `Series.pct_change(L) * 100`: NaN for the first `L` positions,
then `(x[i] - x[i-L]) / x[i-L] * 100` in float semantics. -/
def pct_change_x100 (L : Nat) (xs : List PVal) : List PVal :=
  (List.range xs.length).map (fun i =>
    if i < L then .nan
    else
      pmul (pdiv (psub (xs.getD i .nan) (xs.getD (i - L) .nan))
                 (xs.getD (i - L) .nan)) (.num 100))

/-- Append the two growth columns for one source column, consuming the
computed column values row by row. -/
def appendGrowth (cw ca : String) :
    List (Nat × List (String × PVal)) → List PVal → List PVal →
    List (Nat × List (String × PVal))
  | r :: rs, x :: xs, y :: ys =>
      (r.1, r.2 ++ [(cw, x), (ca, y)]) :: appendGrowth cw ca rs xs ys
  | rs, _, _ => rs

/-- Lines 330–331 for one column `c`: add `c_weekly_growth` (lag 1) and
`c_annual_growth` (lag 52). -/
def addGrowthCols (p : PDF) (c : String) : PDF :=
  ⟨p.cols ++ [c ++ "_weekly_growth", c ++ "_annual_growth"],
   appendGrowth (c ++ "_weekly_growth") (c ++ "_annual_growth") p.rows
     (pct_change_x100 1 (colVals p c)) (pct_change_x100 52 (colVals p c))⟩

/-- Lines 327–331: the growth table. -/
def growth_data (df : DF) : PDF :=
  df.cols.foldl (fun acc c => addGrowthCols acc c) (toPDF df)

/-- Lines 211–220 for one selected asset: with more than one row and the
asset among the columns, compute `change = latest - prev` and
`change_pct = change / prev * 100 if prev_val != 0 else 0` (note the Python
float test `prev_val != 0` is true for NaN). -/
def latestMetrics (df : DF) (asset : String) : Option (PVal × PVal) :=
  if 1 < df.rows.length then
    if asset ∈ df.cols then
      let latest := df.rows.getD (df.rows.length - 1) (0, [])
      let prev := df.rows.getD (df.rows.length - 2) (0, [])
      let current_val := ofOpt ((List.lookup asset latest.2).getD none)
      let prev_val := ofOpt ((List.lookup asset prev.2).getD none)
      let change := psub current_val prev_val
      some (change,
        if pyNeZero prev_val then pmul (pdiv change prev_val) (.num 100)
        else .num 0)
    else none
  else none

/-- The `_pct` column names generated by the composition loop for a list of
source columns (the total column is skipped). -/
def pctNames : List String → List String
  | [] => []
  | c :: rest =>
      if c = "Total Assets" then pctNames rest
      else (c ++ "_pct") :: pctNames rest

/-- The `_pct` cells the composition loop appends to one row, given that
row's original cells. -/
def pctChunk (cells : List (String × Option ℚ)) : List String → List (String × PVal)
  | [] => []
  | c :: rest =>
      if c = "Total Assets" then pctChunk cells rest
      else (c ++ "_pct",
        pmul (pdiv (ofOpt ((List.lookup c cells).getD none))
                   (ofOpt ((List.lookup "Total Assets" cells).getD none)))
           (.num 100)) :: pctChunk cells rest

/-- The composition table after the loop has processed the columns in
`done`: the original cells (as floats) followed by the generated `_pct`
cells. -/
def withPct (df : DF) (done : List String) : PDF :=
  ⟨df.cols ++ pctNames done,
   df.rows.map (fun r =>
     (r.1, r.2.map (fun cl => (cl.1, ofOpt cl.2)) ++ pctChunk r.2 done))⟩

/-- The growth column names generated for a list of source columns. -/
def suffixNames : List String → List String
  | [] => []
  | c :: rest =>
      (c ++ "_weekly_growth") :: (c ++ "_annual_growth") :: suffixNames rest

/-- The growth cells appended to row `i`, given the source frame. -/
def growthChunk (df : DF) (i : Nat) : List String → List (String × PVal)
  | [] => []
  | c :: rest =>
      (c ++ "_weekly_growth", (pct_change_x100 1 (colValsDF df c)).getD i .nan)
        :: (c ++ "_annual_growth", (pct_change_x100 52 (colValsDF df c)).getD i .nan)
        :: growthChunk df i rest

/-- The growth table after the loop has processed the columns in `done`. -/
def withGrowth (df : DF) (done : List String) : PDF :=
  ⟨df.cols ++ suffixNames done,
   (List.range df.rows.length).map (fun i =>
     ((df.rows.getD i (0, [])).1,
      (df.rows.getD i (0, [])).2.map (fun cl => (cl.1, ofOpt cl.2)) ++
        growthChunk df i done))⟩

/-- Invariant of the raw outer-join fold: the columns are the series names,
the row dates are unique and are exactly the union of the observation
dates, every row's cells are keyed by the columns, and each row's cell for
a series holds exactly that series' observation at the row's date (NaN when
the series has no observation there). -/
def RawInv (ss : List Series) (df : DF) : Prop :=
  df.cols = namesOf ss
  ∧ (datesOf df).Nodup
  ∧ (∀ d, d ∈ datesOf df ↔ d ∈ allDates ss)
  ∧ (∀ r ∈ df.rows, keysOf r.2 = df.cols)
  ∧ (∀ r ∈ df.rows, ∀ s ∈ ss,
      List.lookup s.name r.2 = some (List.lookup r.1 s.obs))

/-- Concrete network outcomes: the `WALCL` request is rejected with HTTP 403
(credential rejection), every other series responds normally. -/
def outcomeC2 (sid : String) : HttpOutcome :=
  if sid = "WALCL" then .resp 403 (.jsonObs (some [("2024-01-03", "100")]))
  else .resp 200 (.jsonObs (some [("2024-01-03", "7")]))

/-- Concrete two-series batch: X observed at weeks 1 and 3, Y at weeks 1
and 2. -/
def ssX : List Series :=
  [⟨"X", [(1, 10), (3, 30)]⟩, ⟨"Y", [(1, 100), (2, 200)]⟩]

/-- The same batch with the series swapped. -/
def ssXsw : List Series :=
  [⟨"Y", [(1, 100), (2, 200)]⟩, ⟨"X", [(1, 10), (3, 30)]⟩]

/-- Concrete display table whose total column is zero while another column
is present and nonzero. -/
def dfC1 : DF :=
  ⟨["Total Assets", "Loans"],
   [(0, [("Total Assets", some 0), ("Loans", some 5)])]⟩

/-- Concrete display table with a nonzero total. -/
def dfC1b : DF :=
  ⟨["Total Assets", "Loans"],
   [(0, [("Total Assets", some 2), ("Loans", some 1)])]⟩

/-- Concrete one-column display table with two rows. -/
def dfG : DF :=
  ⟨["Loans"], [(0, [("Loans", some 4)]), (1, [("Loans", some 5)])]⟩

/-- Concrete display table whose second-to-last value is zero. -/
def dfC9 : DF :=
  ⟨["Loans"], [(0, [("Loans", some 0)]), (1, [("Loans", some 5)])]⟩

/-- Concrete merged table with an identifier column and a NaN cell. -/
def dfC7 : DF :=
  ⟨["WLCFLL"], [(0, [("WLCFLL", some 5000)]), (1, [("WLCFLL", none)])]⟩

/-!  Generic association-list lemmas. -/

theorem lookup_eq_none_of_not_mem {α β : Type} [BEq α] [LawfulBEq α] {k : α} :
    ∀ {l : List (α × β)}, k ∉ l.map (fun p => p.1) → List.lookup k l = none := by
  intro l
  induction l with
  | nil => intro _; rfl
  | cons p rest ih =>
      intro h
      simp only [List.map_cons, List.mem_cons] at h
      push_neg at h
      have hne : (k == p.1) = false := by
        simp [beq_eq_false_iff_ne]
        exact h.1
      simp [List.lookup, hne, ih h.2]

theorem lookup_eq_some_of_nodup {α β : Type} [BEq α] [LawfulBEq α] {k : α} {v : β} :
    ∀ {l : List (α × β)}, (l.map (fun p => p.1)).Nodup → (k, v) ∈ l →
      List.lookup k l = some v := by
  intro l
  induction l with
  | nil => intro _ h; cases h
  | cons p rest ih =>
      intro hnd hm
      simp only [List.map_cons, List.nodup_cons] at hnd
      rcases List.mem_cons.mp hm with he | ht
      · cases he
        simp [List.lookup]
      · have hne : (k == p.1) = false := by
          simp [beq_eq_false_iff_ne]
          intro he
          exact hnd.1 (he ▸ List.mem_map_of_mem (fun q => q.1) ht)
        simp [List.lookup, hne, ih hnd.2 ht]

theorem lookup_append_left {α β : Type} [BEq α] [LawfulBEq α] {k : α} :
    ∀ {l₁ l₂ : List (α × β)}, k ∈ l₁.map (fun p => p.1) →
      List.lookup k (l₁ ++ l₂) = List.lookup k l₁ := by
  intro l₁ l₂
  induction l₁ with
  | nil => intro h; cases h
  | cons p rest ih =>
      intro h
      by_cases he : k == p.1
      · simp [List.lookup, he]
      · have hm : k ∈ rest.map (fun p => p.1) := by
          rcases List.mem_cons.mp h with h1 | h2
          · exact absurd (by simp [h1]) he
          · exact h2
        simp [List.lookup, he, ih hm]

theorem lookup_append_right {α β : Type} [BEq α] [LawfulBEq α] {k : α} :
    ∀ {l₁ l₂ : List (α × β)}, k ∉ l₁.map (fun p => p.1) →
      List.lookup k (l₁ ++ l₂) = List.lookup k l₂ := by
  intro l₁ l₂
  induction l₁ with
  | nil => intro _; rfl
  | cons p rest ih =>
      intro h
      simp only [List.map_cons, List.mem_cons] at h
      push_neg at h
      have hne : (k == p.1) = false := by
        simp [beq_eq_false_iff_ne]
        exact h.1
      simp [List.lookup, hne, ih h.2]

theorem lookup_map_const {α β : Type} [BEq α] [LawfulBEq α] {k : α} {x : β} :
    ∀ {cs : List α}, k ∈ cs →
      List.lookup k (cs.map (fun c => (c, x))) = some x := by
  intro cs
  induction cs with
  | nil => intro h; cases h
  | cons c rest ih =>
      intro h
      by_cases he : k == c
      · simp [List.lookup, he]
      · have hm : k ∈ rest := by
          rcases List.mem_cons.mp h with h1 | h2
          · exact absurd (by simp [h1]) he
          · exact h2
        simp [List.lookup, he, ih hm]

theorem lookup_map_values {α β γ : Type} [BEq α] [LawfulBEq α] {k : α} (f : β → γ) :
    ∀ (l : List (α × β)),
      List.lookup k (l.map (fun p => (p.1, f p.2))) = (List.lookup k l).map f := by
  intro l
  induction l with
  | nil => rfl
  | cons p rest ih =>
      by_cases he : k == p.1
      · simp [List.lookup, he]
      · simp [List.lookup, he, ih]

/-!  Fetch-loop structure lemmas. -/

theorem fetchLoop_go (f : String → HttpOutcome) (k : String) :
    ∀ (l : List String) (acc : List (List (String × ℚ)) × Nat),
      l.foldl (fetchStep k f) acc =
        (acc.1 ++ (fetchLoop l f k).1, acc.2 + (fetchLoop l f k).2) := by
  intro l
  induction l with
  | nil => intro acc; simp [fetchLoop]
  | cons a rest ih =>
      intro acc
      have hr : fetchLoop (a :: rest) f k =
          ((fetchStep k f ([], 0) a).1 ++ (fetchLoop rest f k).1,
           (fetchStep k f ([], 0) a).2 + (fetchLoop rest f k).2) := by
        unfold fetchLoop
        rw [List.foldl_cons, ih]
        rfl
      rw [List.foldl_cons, ih, hr]
      cases hf : fetchOf k f a with
      | none => simp [fetchStep, hf]
      | some df =>
          by_cases hde : df.isEmpty <;>
            simp [fetchStep, hf, hde, List.append_assoc, Nat.add_assoc]

theorem fetchLoop_cons (f : String → HttpOutcome) (k : String) (a : String)
    (rest : List String) :
    fetchLoop (a :: rest) f k =
      ((fetchStep k f ([], 0) a).1 ++ (fetchLoop rest f k).1,
       (fetchStep k f ([], 0) a).2 + (fetchLoop rest f k).2) := by
  unfold fetchLoop
  rw [List.foldl_cons, fetchLoop_go]
  rfl

theorem mem_fetchLoop (f : String → HttpOutcome) (k : String) :
    ∀ (selected : List String) (a : String), a ∈ selected →
      ∀ df, fetchOf k f a = some df → ¬ df.isEmpty →
        df ∈ (fetchLoop selected f k).1 := by
  intro selected
  induction selected with
  | nil => intro a h; cases h
  | cons x rest ih =>
      intro a h df hf hne
      rw [fetchLoop_cons]
      rcases List.mem_cons.mp h with he | ht
      · subst he
        apply List.mem_append_left
        simp [fetchStep, hf, hne]
      · exact List.mem_append_right _ (ih a ht df hf hne)

theorem fetchLoop_count_zero (f : String → HttpOutcome) (k : String) :
    ∀ (selected : List String),
      (fetchLoop selected f k).2 = 0 ↔
        ∀ a ∈ selected, ∀ df, fetchOf k f a = some df → df.isEmpty := by
  intro selected
  induction selected with
  | nil => simp [fetchLoop]
  | cons x rest ih =>
      rw [fetchLoop_cons]
      constructor
      · intro h a ha df hf
        have hx : (fetchStep k f ([], 0) x).2 = 0 ∧ (fetchLoop rest f k).2 = 0 := by
          omega
        rcases List.mem_cons.mp ha with he | ht
        · subst he
          by_contra hne
          have hs : (fetchStep k f ([], 0) a).2 = 1 := by
            simp [fetchStep, hf, hne]
          rw [hs] at hx
          exact absurd hx.1 one_ne_zero
        · exact (ih.mp hx.2) a ht df hf
      · intro h
        have h1 : (fetchStep k f ([], 0) x).2 = 0 := by
          cases hf : fetchOf k f x with
          | none => simp [fetchStep, hf]
          | some df =>
              have := h x (List.mem_cons_self x rest) df hf
              simp [fetchStep, hf, this]
        have h2 : (fetchLoop rest f k).2 = 0 :=
          ih.mpr (fun a ha df hf => h a (List.mem_cons_of_mem x ha) df hf)
        simp [h1, h2]

/-- Claim C10: the static label→identifier registry has 10 entries and is
injective — the identifiers are pairwise distinct, so no two labels select
the same upstream series. -/
theorem fred_series_registry_injective :
    FRED_SERIES.length = 10 ∧ (FRED_SERIES.map (fun p => p.2)).Nodup :=
  ⟨rfl, by decide⟩

/-- Claim C5: fetch drops every observation whose value string fails numeric
parsing (nothing is coerced to zero: a successful result consists exactly of
the parseable observations with their parsed values), returns the no-data
failure (`none`) when zero valid observations remain, and on the raw
observations [("2024-01-03", "100"), ("2024-01-10", ".")] yields exactly the
single observation ("2024-01-03", 100). -/
theorem fetch_drops_unparseable (k : String) (st : Nat)
    (obs : List (String × String))
    (hk : ¬ k.data.all (fun c => c.isWhitespace)) (hst : st < 400) :
    ((∀ o ∈ obs, parseNumeric o.2 = none) →
        fetch_fred_data k (.resp st (.jsonObs (some obs))) = none)
    ∧ (∀ l, fetch_fred_data k (.resp st (.jsonObs (some obs))) = some l →
        l = obs.filterMap (fun o => (parseNumeric o.2).map (fun q => (o.1, q)))
          ∧ l ≠ [])
    ∧ fetch_fred_data k
        (.resp st (.jsonObs (some [("2024-01-03", "100"), ("2024-01-10", ".")]))) =
      some [("2024-01-03", (100 : ℚ))] := by
  have hcond : ¬ (400 ≤ st ∧ st < 600) := by omega
  have hopen : ∀ os : List (String × String),
      fetch_fred_data k (.resp st (.jsonObs (some os))) =
        if os.isEmpty then none
        else
          if (os.filterMap (fun o => (parseNumeric o.2).map (fun q => (o.1, q)))).isEmpty
          then none
          else some (os.filterMap (fun o => (parseNumeric o.2).map (fun q => (o.1, q)))) := by
    intro os
    simp only [fetch_fred_data, if_neg hk, if_neg hcond, Option.getD_some]
  refine ⟨?_, ?_, ?_⟩
  · intro hall
    rw [hopen]
    by_cases he : obs.isEmpty
    · rw [if_pos he]
    · have hfm : (obs.filterMap (fun o => (parseNumeric o.2).map (fun q => (o.1, q)))) = [] := by
        rw [List.filterMap_eq_nil_iff]
        intro o ho
        rw [hall o ho]
        rfl
      rw [if_neg he, if_pos (by rw [hfm]; rfl)]
  · intro l hl
    rw [hopen] at hl
    by_cases he : obs.isEmpty
    · rw [if_pos he] at hl; cases hl
    · rw [if_neg he] at hl
      by_cases hp : (obs.filterMap (fun o => (parseNumeric o.2).map (fun q => (o.1, q)))).isEmpty
      · rw [if_pos hp] at hl; cases hl
      · rw [if_neg hp] at hl
        have hl2 : obs.filterMap (fun o => (parseNumeric o.2).map (fun q => (o.1, q))) = l :=
          Option.some.inj hl
        refine ⟨hl2.symm, ?_⟩
        intro hnil
        rw [hnil] at hl2
        exact hp (by rw [hl2]; rfl)
  · rw [hopen]
    simp [parseNumeric, splitDot, digitsToNat]

/-- Witness for `fetch_drops_unparseable` at credential "key" and
status 200. -/
theorem fetch_drops_unparseable_witness :
    fetch_fred_data "key"
        (.resp 200 (.jsonObs (some [("2024-01-03", "100"), ("2024-01-10", ".")]))) =
      some [("2024-01-03", (100 : ℚ))] :=
  (fetch_drops_unparseable "key" 200 [] (by decide) (by decide)).2.2

/-- Claim C2 counterexample: the code does not surface HTTP 403 as a
distinct Unauthorized error — an invalid credential, a transport failure, an
empty series and a malformed payload all produce the same `None` — and the
fetch loop does not halt after the 403 on WALCL ("Total Assets"): it still
fetches the next series and keeps its data. -/
theorem unauthorized_indistinct_counterexample :
    fetch_fred_data "key" (.resp 403 (.jsonObs (some [("2024-01-03", "100")]))) = none
    ∧ fetch_fred_data "key" .netFailure = none
    ∧ fetch_fred_data "key" (.resp 200 (.jsonObs (some []))) = none
    ∧ fetch_fred_data "key" (.resp 200 .notJson) = none
    ∧ fetchLoop ["Total Assets", "Treasury Securities"] outcomeC2 "key" =
        ([[("2024-01-03", (7 : ℚ))]], 1) := by
  refine ⟨by simp [fetch_fred_data], by simp [fetch_fred_data],
    by simp [fetch_fred_data], by simp [fetch_fred_data], ?_⟩
  simp [fetchLoop, fetchStep, fetchOf, outcomeC2, FRED_SERIES, List.lookup,
    fetch_fred_data, parseNumeric, splitDot, digitsToNat]

/-- Claim C2, amended: every HTTP error status — 403 included — and every
other failure is surfaced as the same `None`, and the caller never halts on
a failure: the loop processes a list of selected series segment by segment
independently of the outcomes in the earlier segment. -/
theorem fetch_failure_uniform_no_halt (k : String) (st : Nat) (b : Body)
    (hs : 400 ≤ st) (hs6 : st < 600) (xs ys : List String)
    (f : String → HttpOutcome) :
    fetch_fred_data k (.resp st b) = none
    ∧ fetchLoop (xs ++ ys) f k =
        ((fetchLoop xs f k).1 ++ (fetchLoop ys f k).1,
         (fetchLoop xs f k).2 + (fetchLoop ys f k).2) := by
  constructor
  · by_cases hk : k.data.all (fun c => c.isWhitespace)
    · simp [fetch_fred_data, hk]
    · simp [fetch_fred_data, hk, hs, hs6]
  · unfold fetchLoop
    rw [List.foldl_append, fetchLoop_go]
    rfl

/-- Witness for `fetch_failure_uniform_no_halt` at a concrete 403 response
and a concrete split of the selected series. -/
theorem fetch_failure_uniform_no_halt_witness :
    fetch_fred_data "key" (.resp 403 Body.notJson) = none
    ∧ fetchLoop (["Total Assets"] ++ ["Loans"]) outcomeC2 "key" =
        ((fetchLoop ["Total Assets"] outcomeC2 "key").1 ++
           (fetchLoop ["Loans"] outcomeC2 "key").1,
         (fetchLoop ["Total Assets"] outcomeC2 "key").2 +
           (fetchLoop ["Loans"] outcomeC2 "key").2) :=
  fetch_failure_uniform_no_halt "key" 403 Body.notJson (by decide) (by decide)
    ["Total Assets"] ["Loans"] outcomeC2

/-- Claim C6: fetch failures are isolated per series — any series that
fetches successfully lands in the collected data no matter what happened to
the other series — the run is fatal (`none`) exactly when every requested
series failed, and when at least one succeeded the pipeline continues with
the successful subset. -/
theorem fetch_isolation_and_fatal_empty (selected : List String)
    (f : String → HttpOutcome) (k : String) :
    (∀ a ∈ selected, ∀ df, fetchOf k f a = some df → ¬ df.isEmpty →
        df ∈ (fetchLoop selected f k).1)
    ∧ (pipelineData selected f k = none ↔
        ∀ a ∈ selected, ∀ df, fetchOf k f a = some df → df.isEmpty)
    ∧ (¬ (∀ a ∈ selected, ∀ df, fetchOf k f a = some df → df.isEmpty) →
        pipelineData selected f k = some (fetchLoop selected f k).1) := by
  refine ⟨mem_fetchLoop f k selected, ?_, ?_⟩
  · show (if (fetchLoop selected f k).2 = 0 then none
        else some (fetchLoop selected f k).1) = none ↔ _
    by_cases hz : (fetchLoop selected f k).2 = 0
    · rw [if_pos hz]
      exact ⟨fun _ => (fetchLoop_count_zero f k selected).mp hz, fun _ => rfl⟩
    · rw [if_neg hz]
      constructor
      · intro h; cases h
      · intro h
        exact absurd ((fetchLoop_count_zero f k selected).mpr h) hz
  · intro h
    have hz : ¬ (fetchLoop selected f k).2 = 0 := by
      intro hz
      exact h ((fetchLoop_count_zero f k selected).mp hz)
    show (if (fetchLoop selected f k).2 = 0 then none
      else some (fetchLoop selected f k).1) = some (fetchLoop selected f k).1
    rw [if_neg hz]

/-- Witness for `fetch_isolation_and_fatal_empty`: with the 403 outcome on
"Total Assets", the successfully fetched "Treasury Securities" data is still
collected. -/
theorem fetch_isolation_and_fatal_empty_witness :
    [("2024-01-03", (7 : ℚ))] ∈
      (fetchLoop ["Total Assets", "Treasury Securities"] outcomeC2 "key").1 :=
  (fetch_isolation_and_fatal_empty ["Total Assets", "Treasury Securities"]
      outcomeC2 "key").1 "Treasury Securities" (by decide)
    [("2024-01-03", (7 : ℚ))]
    (by simp [fetchOf, outcomeC2, FRED_SERIES, List.lookup, fetch_fred_data,
          parseNumeric, splitDot, digitsToNat])
    (by decide)

/-!  Display-table lemmas. -/

theorem foldl_setColDiv_cols :
    ∀ (cs : List String) (df : DF), (cs.foldl setColDiv df).cols = df.cols := by
  intro cs
  induction cs with
  | nil => intro df; rfl
  | cons c cs' ih =>
      intro df
      rw [List.foldl_cons, ih (setColDiv df c)]
      rfl

theorem foldl_setColDiv_rows :
    ∀ (cs : List String) (df : DF), cs.Nodup →
      (cs.foldl setColDiv df).rows =
        df.rows.map (fun r =>
          (r.1, r.2.map (fun cell =>
            if cell.1 ∈ cs then (cell.1, cell.2.map (fun q => q / 1000)) else cell))) := by
  intro cs
  induction cs with
  | nil =>
      intro df _
      simp
  | cons c cs' ih =>
      intro df hnd
      have hc : c ∉ cs' := (List.nodup_cons.mp hnd).1
      have hnd' := (List.nodup_cons.mp hnd).2
      rw [List.foldl_cons, ih (setColDiv df c) hnd']
      show (df.rows.map _).map _ = _
      rw [List.map_map]
      apply List.map_congr_left
      intro r _
      simp only [Function.comp]
      rw [List.map_map]
      refine congrArg (fun z => (r.1, z)) ?_
      apply List.map_congr_left
      intro cell _
      simp only [Function.comp_apply]
      by_cases hec : cell.1 = c
      · rw [if_pos hec]
        dsimp only
        rw [if_neg (by simpa [hec] using hc), if_pos (by simp [hec])]
      · rw [if_neg hec]
        by_cases hm : cell.1 ∈ cs'
        · rw [if_pos hm, if_pos (List.mem_cons_of_mem c hm)]
        · rw [if_neg hm, if_neg (by simp [hec, hm])]

/-- Claim C7: the display table divides every cell of every (non-date)
column by 1000 exactly once, leaves NaN cells NaN and the date column
unchanged, renames each column through the reversed registry, and is a
one-to-one, order-preserving transform: the rows of `display_data` are
exactly the rows of the merged frame, in order, with each cell
`(c, v)` rewritten to `(renameCol c, v / 1000)` (`none` staying `none`). -/
theorem display_scale_rename (df : DF)
    (hwf : ∀ r ∈ df.rows, keysOf r.2 = df.cols) (hnd : df.cols.Nodup) :
    (display_data df).cols = df.cols.map renameCol
    ∧ (display_data df).rows =
        df.rows.map (fun r =>
          (r.1, r.2.map (fun cell =>
            (renameCol cell.1, cell.2.map (fun q => q / 1000)))))
    ∧ (display_data df).rows.map (fun r => r.1) = df.rows.map (fun r => r.1) := by
  have hcols : (display_data df).cols = df.cols.map renameCol := by
    show ((scaleCols df).cols).map renameCol = df.cols.map renameCol
    rw [show (scaleCols df).cols = df.cols from foldl_setColDiv_cols df.cols df]
  have hrows : (display_data df).rows =
      df.rows.map (fun r =>
        (r.1, r.2.map (fun cell =>
          (renameCol cell.1, cell.2.map (fun q => q / 1000))))) := by
    show ((scaleCols df).rows).map _ = _
    rw [show (scaleCols df).rows = _ from foldl_setColDiv_rows df.cols df hnd]
    rw [List.map_map]
    apply List.map_congr_left
    intro r hr
    simp only [Function.comp]
    rw [List.map_map]
    refine congrArg (fun z => (r.1, z)) ?_
    apply List.map_congr_left
    intro cell hcell
    have hmem : cell.1 ∈ df.cols := by
      rw [← hwf r hr]
      exact List.mem_map_of_mem (fun c => c.1) hcell
    simp only [Function.comp_apply]
    rw [if_pos hmem]
  exact ⟨hcols, hrows, by rw [hrows]; simp⟩

/-- Witness for `display_scale_rename` on a concrete two-row merged frame:
5000 (thousands) becomes 5 (billions), NaN stays NaN, and the identifier
column WLCFLL is renamed to its label. -/
theorem display_scale_rename_witness :
    (display_data dfC7).rows =
      [(0, [("Loans", some (5 : ℚ))]), (1, [("Loans", none)])] := by
  have h := (display_scale_rename dfC7 (by decide) (by decide)).2.1
  rw [h]
  simp [dfC7, renameCol, reverse_series_mapping, FRED_SERIES, List.lookup]
  norm_num

/-!  PVal arithmetic facts. -/

theorem pdiv_nan_left (x : PVal) : pdiv .nan x = .nan := by
  cases x <;> rfl

theorem pdiv_nan_right (x : PVal) : pdiv x .nan = .nan := by
  cases x <;> rfl

theorem pmul_nan_left (x : PVal) : pmul .nan x = .nan := by
  cases x <;> rfl

theorem pmul_nan_right (x : PVal) : pmul x .nan = .nan := by
  cases x <;> rfl

theorem pdiv_num_zero {a : ℚ} (ha : a ≠ 0) :
    pdiv (.num a) (.num 0) = .inf (decide (0 < a)) := by
  simp [pdiv, ha]

theorem pdiv_zero_zero : pdiv (.num 0) (.num 0) = .nan := by
  simp [pdiv]

theorem pdiv_num_num {a b : ℚ} (hb : b ≠ 0) :
    pdiv (.num a) (.num b) = .num (a / b) := by
  simp [pdiv, hb]

theorem pmul_num_num (a b : ℚ) : pmul (.num a) (.num b) = .num (a * b) := rfl

theorem pmul_inf_hundred (s : Bool) : pmul (.inf s) (.num 100) = .inf s := by
  have h : ¬ ((100 : ℚ) = 0) := by norm_num
  have h2 : decide ((0 : ℚ) < 100) = true := by norm_num
  cases s <;> simp [pmul, h, h2]

/-!  Composition-table lemmas. -/

theorem lookup_mem_keys {α β : Type} [BEq α] [LawfulBEq α] {k : α} :
    ∀ {l : List (α × β)}, k ∈ l.map (fun p => p.1) →
      ∃ v, List.lookup k l = some v := by
  intro l
  induction l with
  | nil => intro h; cases h
  | cons p rest ih =>
      intro h
      by_cases he : k == p.1
      · exact ⟨p.2, by simp [List.lookup, he]⟩
      · have hm : k ∈ rest.map (fun p => p.1) := by
          rcases List.mem_cons.mp h with h1 | h2
          · exact absurd (by simp [h1]) he
          · exact h2
        rcases ih hm with ⟨v, hv⟩
        exact ⟨v, by simp [List.lookup, he, hv]⟩

theorem rowPCell_embed_chunk {cells : List (String × Option ℚ)}
    {cols : List String} {c : String} (chunk : List (String × PVal))
    (hk : keysOf cells = cols) (hc : c ∈ cols) :
    rowPCell (cells.map (fun cl => (cl.1, ofOpt cl.2)) ++ chunk) c =
      ofOpt ((List.lookup c cells).getD none) := by
  have hkeys : (cells.map (fun cl => (cl.1, ofOpt cl.2))).map (fun p => p.1) = cols := by
    rw [List.map_map]
    exact hk
  have hmem : c ∈ (cells.map (fun cl => (cl.1, ofOpt cl.2))).map (fun p => p.1) := by
    rw [hkeys]; exact hc
  have hmem2 : c ∈ cells.map (fun p => p.1) := by
    have : keysOf cells = cols := hk
    rw [show cells.map (fun p => p.1) = keysOf cells from rfl, this]
    exact hc
  unfold rowPCell
  rw [lookup_append_left hmem, lookup_map_values]
  rcases lookup_mem_keys hmem2 with ⟨v, hv⟩
  simp [hv]

theorem pctNames_append : ∀ (l₁ l₂ : List String),
    pctNames (l₁ ++ l₂) = pctNames l₁ ++ pctNames l₂ := by
  intro l₁ l₂
  induction l₁ with
  | nil => rfl
  | cons c rest ih =>
      by_cases hta : c = "Total Assets" <;> simp [pctNames, hta, ih]

theorem pctChunk_append (cells : List (String × Option ℚ)) :
    ∀ (l₁ l₂ : List String),
      pctChunk cells (l₁ ++ l₂) = pctChunk cells l₁ ++ pctChunk cells l₂ := by
  intro l₁ l₂
  induction l₁ with
  | nil => rfl
  | cons c rest ih =>
      by_cases hta : c = "Total Assets" <;> simp [pctChunk, hta, ih]

theorem pctNames_mem {c : String} : ∀ {l : List String}, c ∈ l →
    c ≠ "Total Assets" → (c ++ "_pct") ∈ pctNames l := by
  intro l
  induction l with
  | nil => intro h; cases h
  | cons c0 rest ih =>
      intro hm hne
      by_cases hta : c0 = "Total Assets"
      · have hm' : c ∈ rest := by
          rcases List.mem_cons.mp hm with he | ht
          · exact absurd (he.trans hta) hne
          · exact ht
        simp only [pctNames, if_pos hta]
        exact ih hm' hne
      · simp only [pctNames, if_neg hta]
        rcases List.mem_cons.mp hm with he | ht
        · exact he ▸ List.mem_cons_self _ _
        · exact List.mem_cons_of_mem _ (ih ht hne)

theorem pctChunk_lookup (cells : List (String × Option ℚ)) (c : String) :
    ∀ (l : List String), (pctNames l).Nodup → c ∈ l → c ≠ "Total Assets" →
      List.lookup (c ++ "_pct") (pctChunk cells l) =
        some (pmul (pdiv (ofOpt ((List.lookup c cells).getD none))
                         (ofOpt ((List.lookup "Total Assets" cells).getD none)))
              (.num 100)) := by
  intro l
  induction l with
  | nil => intro _ h; cases h
  | cons c0 rest ih =>
      intro hnd hm hne
      by_cases hta : c0 = "Total Assets"
      · have hm' : c ∈ rest := by
          rcases List.mem_cons.mp hm with he | ht
          · exact absurd (he.trans hta) hne
          · exact ht
        have hnd' : (pctNames rest).Nodup := by
          simpa [pctNames, hta] using hnd
        simp only [pctChunk, if_pos hta]
        exact ih hnd' hm' hne
      · have hnd2 : ((c0 ++ "_pct") :: pctNames rest).Nodup := by
          simpa [pctNames, hta] using hnd
        rw [show pctChunk cells (c0 :: rest) = (c0 ++ "_pct",
            pmul (pdiv (ofOpt ((List.lookup c0 cells).getD none))
                       (ofOpt ((List.lookup "Total Assets" cells).getD none)))
              (.num 100)) :: pctChunk cells rest by simp [pctChunk, hta]]
        by_cases hcc : c = c0
        · subst hcc
          simp [List.lookup]
        · have hcr : c ∈ rest := by
            rcases List.mem_cons.mp hm with he | ht
            · exact absurd he hcc
            · exact ht
          have hmem : (c ++ "_pct") ∈ pctNames rest := pctNames_mem hcr hne
          have hneq : ¬ ((c ++ "_pct") = (c0 ++ "_pct")) := by
            intro he
            exact (List.nodup_cons.mp hnd2).1 (he ▸ hmem)
          have hb : ((c ++ "_pct") == (c0 ++ "_pct")) = false := by
            simp [hneq]
          simp only [List.lookup, hb]
          exact ih (List.nodup_cons.mp hnd2).2 hcr hne

theorem addPct_withPct (df : DF) (done : List String) (c : String)
    (hwf : ∀ r ∈ df.rows, keysOf r.2 = df.cols)
    (hTA : "Total Assets" ∈ df.cols) (hc : c ∈ df.cols)
    (hne : c ≠ "Total Assets") :
    addPctCol (withPct df done) c = withPct df (done ++ [c]) := by
  unfold addPctCol withPct
  congr 1
  · rw [pctNames_append]
    simp [pctNames, hne, List.append_assoc]
  · rw [List.map_map]
    apply List.map_congr_left
    intro r hr
    simp only [Function.comp_apply]
    rw [pctChunk_append]
    simp only [pctChunk, if_neg hne]
    rw [rowPCell_embed_chunk _ (hwf r hr) hc,
        rowPCell_embed_chunk _ (hwf r hr) hTA]
    simp [List.append_assoc]

theorem withPct_skip_ta (df : DF) (done cs : List String) :
    withPct df (done ++ "Total Assets" :: cs) = withPct df (done ++ cs) := by
  have h1 : pctNames (done ++ "Total Assets" :: cs) = pctNames (done ++ cs) := by
    rw [pctNames_append, pctNames_append]
    simp [pctNames]
  have h2 : ∀ cells, pctChunk cells (done ++ "Total Assets" :: cs) =
      pctChunk cells (done ++ cs) := by
    intro cells
    rw [pctChunk_append, pctChunk_append]
    simp [pctChunk]
  unfold withPct
  rw [h1]
  congr 1
  apply List.map_congr_left
  intro r _
  rw [h2]

theorem comp_fold : ∀ (cs done : List String) (df : DF),
    (∀ r ∈ df.rows, keysOf r.2 = df.cols) → "Total Assets" ∈ df.cols →
    (∀ c ∈ cs, c ∈ df.cols) →
    cs.foldl (fun acc c => if c = "Total Assets" then acc else addPctCol acc c)
      (withPct df done) = withPct df (done ++ cs) := by
  intro cs
  induction cs with
  | nil => intro done df _ _ _; simp
  | cons c cs' ih =>
      intro done df hwf hTA hcs
      rw [List.foldl_cons]
      by_cases hta : c = "Total Assets"
      · rw [if_pos hta]
        rw [ih done df hwf hTA (fun x hx => hcs x (List.mem_cons_of_mem c hx))]
        subst hta
        exact (withPct_skip_ta df done cs').symm
      · rw [if_neg hta,
            addPct_withPct df done c hwf hTA (hcs c (List.mem_cons_self c cs')) hta,
            ih (done ++ [c]) df hwf hTA
              (fun x hx => hcs x (List.mem_cons_of_mem c hx))]
        rw [List.append_assoc]
        rfl

theorem comp_data_eq (df : DF)
    (hwf : ∀ r ∈ df.rows, keysOf r.2 = df.cols)
    (hTA : "Total Assets" ∈ df.cols) :
    comp_data df = withPct df df.cols := by
  have base : toPDF df = withPct df [] := by
    unfold toPDF withPct
    congr 1
    · simp [pctNames]
    · apply List.map_congr_left
      intro r _
      simp [pctChunk]
  unfold comp_data
  rw [base]
  exact comp_fold df.cols [] df hwf hTA (fun c hc => hc)

theorem find?_fst_map {β γ : Type} (f : Nat × β → Nat × γ)
    (hf : ∀ x, (f x).1 = x.1) (t : Nat) :
    ∀ (l : List (Nat × β)),
      List.find? (fun r => r.1 == t) (l.map f) =
        (List.find? (fun r => r.1 == t) l).map f := by
  intro l
  induction l with
  | nil => rfl
  | cons x rest ih =>
      simp only [List.map_cons, List.find?]
      rw [hf x]
      cases hb : (x.1 == t)
      · simpa [hb] using ih
      · simp [hb]

/-- Claim C1 counterexample: on a display table whose total column is zero
at a row while the Loans column is 5, the composition operation emits a
positive infinity cell — not an absence — contradicting the claim that no
percentage cell is emitted and no infinity is produced at such a row. -/
theorem composition_zero_total_emits_infinity :
    getPCell (comp_data dfC1) 0 "Loans_pct" = .inf true := by decide

/-- Claim C1, amended: the composition operation emits `value/total*100`
when both the column value and the total are present and the total is
nonzero; it emits NaN (pandas absence) when the column value or the total
is absent, and NaN when both value and total are zero; but when the total
is zero and the value is a nonzero present value, the division is unguarded
and a signed infinity is emitted. -/
theorem composition_cases (df : DF)
    (hwf : ∀ r ∈ df.rows, keysOf r.2 = df.cols)
    (hok : (df.cols ++ pctNames df.cols).Nodup)
    (hTA : "Total Assets" ∈ df.cols)
    (c : String) (hc : c ∈ df.cols) (hne : c ≠ "Total Assets")
    (t : Nat) (r : Nat × List (String × Option ℚ))
    (hr : df.rows.find? (fun x => x.1 == t) = some r) (hrm : r ∈ df.rows) :
    (((List.lookup "Total Assets" r.2).getD none) = none →
        getPCell (comp_data df) t (c ++ "_pct") = .nan)
    ∧ (((List.lookup c r.2).getD none) = none →
        getPCell (comp_data df) t (c ++ "_pct") = .nan)
    ∧ (∀ a : ℚ, ((List.lookup c r.2).getD none) = some a →
        ((List.lookup "Total Assets" r.2).getD none) = some 0 → a ≠ 0 →
        getPCell (comp_data df) t (c ++ "_pct") = .inf (decide (0 < a)))
    ∧ (((List.lookup c r.2).getD none) = some 0 →
        ((List.lookup "Total Assets" r.2).getD none) = some 0 →
        getPCell (comp_data df) t (c ++ "_pct") = .nan)
    ∧ (∀ a b : ℚ, ((List.lookup c r.2).getD none) = some a →
        ((List.lookup "Total Assets" r.2).getD none) = some b → b ≠ 0 →
        getPCell (comp_data df) t (c ++ "_pct") = .num (a / b * 100)) := by
  have hpct_nodup : (pctNames df.cols).Nodup := hok.of_append_right
  have hdisj : ∀ x ∈ pctNames df.cols, x ∉ df.cols := by
    intro x hx hxc
    exact (List.disjoint_of_nodup_append hok) hxc hx
  have hcell : getPCell (comp_data df) t (c ++ "_pct") =
      pmul (pdiv (ofOpt ((List.lookup c r.2).getD none))
                 (ofOpt ((List.lookup "Total Assets" r.2).getD none))) (.num 100) := by
    rw [comp_data_eq df hwf hTA]
    have hfind : (withPct df df.cols).rows.find? (fun x => x.1 == t) =
        some (r.1, r.2.map (fun cl => (cl.1, ofOpt cl.2)) ++ pctChunk r.2 df.cols) := by
      have hmap := find?_fst_map
        (fun r : Nat × List (String × Option ℚ) =>
          (r.1, r.2.map (fun cl => (cl.1, ofOpt cl.2)) ++ pctChunk r.2 df.cols))
        (fun x => rfl) t df.rows
      show List.find? (fun x => x.1 == t)
        (df.rows.map (fun r =>
          (r.1, r.2.map (fun cl => (cl.1, ofOpt cl.2)) ++ pctChunk r.2 df.cols))) = _
      rw [hmap, hr]
      rfl
    simp only [getPCell, hfind]
    unfold rowPCell
    have hnotmem : (c ++ "_pct") ∉
        (r.2.map (fun cl => (cl.1, ofOpt cl.2))).map (fun p => p.1) := by
      rw [List.map_map]
      rw [show r.2.map ((fun p : String × PVal => p.1) ∘
            (fun cl : String × Option ℚ => (cl.1, ofOpt cl.2))) = keysOf r.2 from rfl]
      rw [hwf r hrm]
      exact hdisj _ (pctNames_mem hc hne)
    rw [lookup_append_right hnotmem,
        pctChunk_lookup r.2 c df.cols hpct_nodup hc hne]
    rfl
  refine ⟨?_, ?_, ?_, ?_, ?_⟩
  · intro h
    rw [hcell, h]
    rw [show ofOpt none = PVal.nan from rfl, pdiv_nan_right, pmul_nan_left]
  · intro h
    rw [hcell, h]
    rw [show ofOpt none = PVal.nan from rfl, pdiv_nan_left, pmul_nan_left]
  · intro a ha htot hane
    rw [hcell, ha, htot]
    rw [show ofOpt (some a) = PVal.num a from rfl,
        show ofOpt (some 0) = PVal.num 0 from rfl,
        pdiv_num_zero hane, pmul_inf_hundred]
  · intro ha htot
    rw [hcell, ha, htot]
    rw [show ofOpt (some (0 : ℚ)) = PVal.num 0 from rfl, pdiv_zero_zero,
        pmul_nan_left]
  · intro a b ha htot hbne
    rw [hcell, ha, htot]
    rw [show ofOpt (some a) = PVal.num a from rfl,
        show ofOpt (some b) = PVal.num b from rfl,
        pdiv_num_num hbne, pmul_num_num]

/-- Witness for `composition_cases`: with a total of 2 and a value of 1 the
composition cell is 50 (percent). -/
theorem composition_cases_witness :
    getPCell (comp_data dfC1b) 0 "Loans_pct" = .num 50 := by
  have h := (composition_cases dfC1b (by decide) (by decide) (by decide)
      "Loans" (by decide) (by decide) 0
      (0, [("Total Assets", some 2), ("Loans", some 1)])
      (by decide) (by decide)).2.2.2.2 1 2 (by decide) (by decide) (by norm_num)
  have he : ("Loans" ++ "_pct" : String) = "Loans_pct" := rfl
  rw [he] at h
  rw [h]
  have h2 : ((1 : ℚ) / 2 * 100) = 50 := by norm_num
  rw [h2]


/-!  Growth-table lemmas. -/

theorem range_map_getD {A B : Type} (d : A) (h : A → B) :
    ∀ (l : List A),
      (List.range l.length).map (fun i => h (l.getD i d)) = l.map h := by
  intro l
  induction l with
  | nil => rfl
  | cons x xs ih =>
      rw [List.length_cons, List.range_succ_eq_map]
      simp only [List.map_cons, List.map_map, List.getD_cons_zero]
      have htail : (List.range xs.length).map
          ((fun i => h ((x :: xs).getD i d)) ∘ Nat.succ) =
          (List.range xs.length).map (fun i => h (xs.getD i d)) := by
        apply List.map_congr_left
        intro i _
        simp [List.getD_cons_succ]
      rw [htail, ih]

theorem getD_range_map {B : Type} :
    ∀ (n : Nat) (g : Nat → B) (d : B) (i : Nat), i < n →
      ((List.range n).map g).getD i d = g i := by
  intro n
  induction n with
  | zero => intro g d i hi; omega
  | succ m ih =>
      intro g d i hi
      rw [List.range_succ_eq_map]
      cases i with
      | zero => simp [List.getD_cons_zero]
      | succ j =>
          have hj : j < m := by omega
          simp only [List.map_cons, List.map_map, List.getD_cons_succ]
          exact ih (g ∘ Nat.succ) d j hj

theorem appendGrowth_index (cw ca : String) :
    ∀ (rows : List (Nat × List (String × PVal))) (xs ys : List PVal),
      xs.length = rows.length → ys.length = rows.length →
      appendGrowth cw ca rows xs ys =
        (List.range rows.length).map (fun i =>
          ((rows.getD i (0, [])).1,
           (rows.getD i (0, [])).2 ++ [(cw, xs.getD i .nan), (ca, ys.getD i .nan)])) := by
  intro rows
  induction rows with
  | nil => intro xs ys _ _; rfl
  | cons r rs ih =>
      intro xs ys hx hy
      cases xs with
      | nil => simp at hx
      | cons x xs2 =>
          cases ys with
          | nil => simp at hy
          | cons y ys2 =>
              rw [show appendGrowth cw ca (r :: rs) (x :: xs2) (y :: ys2) =
                    (r.1, r.2 ++ [(cw, x), (ca, y)]) ::
                      appendGrowth cw ca rs xs2 ys2 from rfl]
              rw [List.length_cons, List.range_succ_eq_map]
              simp only [List.map_cons, List.map_map]
              congr 1
              exact ih xs2 ys2 (by simpa using hx) (by simpa using hy)

theorem suffixNames_append : ∀ (l₁ l₂ : List String),
    suffixNames (l₁ ++ l₂) = suffixNames l₁ ++ suffixNames l₂ := by
  intro l₁ l₂
  induction l₁ with
  | nil => rfl
  | cons c rest ih => simp [suffixNames, ih]

theorem growthChunk_append (df : DF) (i : Nat) :
    ∀ (l₁ l₂ : List String),
      growthChunk df i (l₁ ++ l₂) = growthChunk df i l₁ ++ growthChunk df i l₂ := by
  intro l₁ l₂
  induction l₁ with
  | nil => rfl
  | cons c rest ih => simp [growthChunk, ih]

theorem suffixNames_mem_wk {c : String} : ∀ {l : List String}, c ∈ l →
    (c ++ "_weekly_growth") ∈ suffixNames l := by
  intro l
  induction l with
  | nil => intro h; cases h
  | cons c0 rest ih =>
      intro hm
      rcases List.mem_cons.mp hm with he | ht
      · exact he ▸ List.mem_cons_self _ _
      · exact List.mem_cons_of_mem _ (List.mem_cons_of_mem _ (ih ht))

theorem suffixNames_mem_an {c : String} : ∀ {l : List String}, c ∈ l →
    (c ++ "_annual_growth") ∈ suffixNames l := by
  intro l
  induction l with
  | nil => intro h; cases h
  | cons c0 rest ih =>
      intro hm
      rcases List.mem_cons.mp hm with he | ht
      · exact List.mem_cons_of_mem _ (he ▸ List.mem_cons_self _ _)
      · exact List.mem_cons_of_mem _ (List.mem_cons_of_mem _ (ih ht))

theorem growthChunk_lookup_wk (df : DF) (i : Nat) (c : String) :
    ∀ (l : List String), (suffixNames l).Nodup → c ∈ l →
      List.lookup (c ++ "_weekly_growth") (growthChunk df i l) =
        some ((pct_change_x100 1 (colValsDF df c)).getD i .nan) := by
  intro l
  induction l with
  | nil => intro _ h; cases h
  | cons c0 rest ih =>
      intro hnd hm
      have hnd2 : ((c0 ++ "_weekly_growth") :: (c0 ++ "_annual_growth") ::
          suffixNames rest).Nodup := by simpa [suffixNames] using hnd
      by_cases hcc : c = c0
      · subst hcc
        simp [growthChunk, List.lookup]
      · have hcr : c ∈ rest := by
          rcases List.mem_cons.mp hm with he | ht
          · exact absurd he hcc
          · exact ht
        have hmemwk : (c ++ "_weekly_growth") ∈ suffixNames rest :=
          suffixNames_mem_wk hcr
        have hne1 : ¬ ((c ++ "_weekly_growth") = (c0 ++ "_weekly_growth")) := by
          intro he
          exact (List.nodup_cons.mp hnd2).1
            (List.mem_cons_of_mem _ (he ▸ hmemwk))
        have hne2 : ¬ ((c ++ "_weekly_growth") = (c0 ++ "_annual_growth")) := by
          intro he
          exact (List.nodup_cons.mp (List.nodup_cons.mp hnd2).2).1 (he ▸ hmemwk)
        have hb1 : ((c ++ "_weekly_growth") == (c0 ++ "_weekly_growth")) = false := by
          simp [hne1]
        have hb2 : ((c ++ "_weekly_growth") == (c0 ++ "_annual_growth")) = false := by
          simp [hne2]
        simp only [growthChunk, List.lookup, hb1, hb2]
        exact ih (List.nodup_cons.mp (List.nodup_cons.mp hnd2).2).2 hcr

theorem growthChunk_lookup_an (df : DF) (i : Nat) (c : String) :
    ∀ (l : List String), (suffixNames l).Nodup → c ∈ l →
      List.lookup (c ++ "_annual_growth") (growthChunk df i l) =
        some ((pct_change_x100 52 (colValsDF df c)).getD i .nan) := by
  intro l
  induction l with
  | nil => intro _ h; cases h
  | cons c0 rest ih =>
      intro hnd hm
      have hnd2 : ((c0 ++ "_weekly_growth") :: (c0 ++ "_annual_growth") ::
          suffixNames rest).Nodup := by simpa [suffixNames] using hnd
      by_cases hcc : c = c0
      · subst hcc
        have hne0 : ¬ ((c ++ "_annual_growth") = (c ++ "_weekly_growth")) := by
          intro he
          exact (List.nodup_cons.mp hnd2).1 (he ▸ List.mem_cons_self _ _)
        have hb0 : ((c ++ "_annual_growth") == (c ++ "_weekly_growth")) = false := by
          simp [hne0]
        simp [growthChunk, List.lookup, hb0]
      · have hcr : c ∈ rest := by
          rcases List.mem_cons.mp hm with he | ht
          · exact absurd he hcc
          · exact ht
        have hmeman : (c ++ "_annual_growth") ∈ suffixNames rest :=
          suffixNames_mem_an hcr
        have hne1 : ¬ ((c ++ "_annual_growth") = (c0 ++ "_weekly_growth")) := by
          intro he
          exact (List.nodup_cons.mp hnd2).1
            (List.mem_cons_of_mem _ (he ▸ hmeman))
        have hne2 : ¬ ((c ++ "_annual_growth") = (c0 ++ "_annual_growth")) := by
          intro he
          exact (List.nodup_cons.mp (List.nodup_cons.mp hnd2).2).1 (he ▸ hmeman)
        have hb1 : ((c ++ "_annual_growth") == (c0 ++ "_weekly_growth")) = false := by
          simp [hne1]
        have hb2 : ((c ++ "_annual_growth") == (c0 ++ "_annual_growth")) = false := by
          simp [hne2]
        simp only [growthChunk, List.lookup, hb1, hb2]
        exact ih (List.nodup_cons.mp (List.nodup_cons.mp hnd2).2).2 hcr

theorem colVals_withGrowth (df : DF) (done : List String) (c : String)
    (hwf : ∀ r ∈ df.rows, keysOf r.2 = df.cols) (hc : c ∈ df.cols) :
    colVals (withGrowth df done) c = colValsDF df c := by
  unfold colVals withGrowth colValsDF
  rw [List.map_map]
  rw [← range_map_getD ((0 : Nat), ([] : List (String × Option ℚ)))
      (fun r => ofOpt ((List.lookup c r.2).getD none)) df.rows]
  apply List.map_congr_left
  intro i hi
  simp only [Function.comp_apply]
  have hlt : i < df.rows.length := List.mem_range.mp hi
  have hmem : df.rows.getD i (0, []) ∈ df.rows := by
    rw [List.getD_eq_getElem df.rows _ hlt]
    exact List.getElem_mem hlt
  exact rowPCell_embed_chunk _ (hwf _ hmem) hc

theorem withGrowth_nil (df : DF) : withGrowth df [] = toPDF df := by
  unfold withGrowth toPDF
  congr 1
  · simp [suffixNames]
  · have h := range_map_getD ((0 : Nat), ([] : List (String × Option ℚ)))
      (fun r : Nat × List (String × Option ℚ) =>
        (r.1, r.2.map (fun cl => (cl.1, ofOpt cl.2)))) df.rows
    simp only [growthChunk, List.append_nil]
    exact h

theorem addGrowth_withGrowth (df : DF) (done : List String) (c : String)
    (hwf : ∀ r ∈ df.rows, keysOf r.2 = df.cols) (hc : c ∈ df.cols) :
    addGrowthCols (withGrowth df done) c = withGrowth df (done ++ [c]) := by
  have hrowslen : (withGrowth df done).rows.length = df.rows.length := by
    show ((List.range df.rows.length).map _).length = _
    rw [List.length_map, List.length_range]
  have hcollen : (colValsDF df c).length = df.rows.length := by
    unfold colValsDF
    rw [List.length_map]
  unfold addGrowthCols
  congr 1
  · show (df.cols ++ suffixNames done) ++ _ = df.cols ++ suffixNames (done ++ [c])
    rw [suffixNames_append]
    simp [suffixNames, List.append_assoc]
  · rw [colVals_withGrowth df done c hwf hc]
    have hlen1 : (pct_change_x100 1 (colValsDF df c)).length =
        (withGrowth df done).rows.length := by
      unfold pct_change_x100
      rw [List.length_map, List.length_range, hcollen, hrowslen]
    have hlen52 : (pct_change_x100 52 (colValsDF df c)).length =
        (withGrowth df done).rows.length := by
      unfold pct_change_x100
      rw [List.length_map, List.length_range, hcollen, hrowslen]
    rw [appendGrowth_index _ _ (withGrowth df done).rows _ _ hlen1 hlen52]
    rw [hrowslen]
    show _ = (List.range df.rows.length).map _
    apply List.map_congr_left
    intro i hi
    have hlt : i < df.rows.length := List.mem_range.mp hi
    have hrow : (withGrowth df done).rows.getD i (0, []) =
        ((df.rows.getD i (0, [])).1,
         (df.rows.getD i (0, [])).2.map (fun cl => (cl.1, ofOpt cl.2)) ++
           growthChunk df i done) := by
      show ((List.range df.rows.length).map _).getD i _ = _
      exact getD_range_map df.rows.length _ _ i hlt
    rw [hrow]
    rw [growthChunk_append df i done [c]]
    simp [growthChunk, List.append_assoc]

theorem growth_fold : ∀ (cs done : List String) (df : DF),
    (∀ r ∈ df.rows, keysOf r.2 = df.cols) → (∀ c ∈ cs, c ∈ df.cols) →
    cs.foldl (fun acc c => addGrowthCols acc c) (withGrowth df done) =
      withGrowth df (done ++ cs) := by
  intro cs
  induction cs with
  | nil => intro done df _ _; simp
  | cons c cs2 ih =>
      intro done df hwf hcs
      rw [List.foldl_cons,
          addGrowth_withGrowth df done c hwf (hcs c (List.mem_cons_self c cs2)),
          ih (done ++ [c]) df hwf
            (fun x hx => hcs x (List.mem_cons_of_mem c hx))]
      rw [List.append_assoc]
      rfl

theorem growth_data_eq (df : DF)
    (hwf : ∀ r ∈ df.rows, keysOf r.2 = df.cols) :
    growth_data df = withGrowth df df.cols := by
  unfold growth_data
  rw [← withGrowth_nil df]
  exact growth_fold df.cols [] df hwf (fun c hc => hc)

theorem pct_change_x100_getD (L : Nat) (xs : List PVal) (i : Nat)
    (hi : i < xs.length) :
    (pct_change_x100 L xs).getD i .nan =
      if i < L then .nan
      else pmul (pdiv (psub (xs.getD i .nan) (xs.getD (i - L) .nan))
                      (xs.getD (i - L) .nan)) (.num 100) := by
  unfold pct_change_x100
  exact getD_range_map xs.length _ _ i hi

/-- Claim C8: for every column of the display table and each configured lag
(1 for the weekly column, 52 for the annual column), the growth operation
emits NaN (absence, not zero) at every row index below the lag, and at index
`i ≥ L` with both `row[i]` and `row[i−L]` present and `row[i−L]` nonzero it
emits `(row[i] − row[i−L]) / row[i−L] * 100`. -/
theorem growth_lag_spec (df : DF)
    (hwf : ∀ r ∈ df.rows, keysOf r.2 = df.cols)
    (hok : (df.cols ++ suffixNames df.cols).Nodup)
    (c : String) (hc : c ∈ df.cols)
    (L : Nat) (suf : String)
    (hL : (L = 1 ∧ suf = "_weekly_growth") ∨ (L = 52 ∧ suf = "_annual_growth"))
    (i : Nat) (hi : i < df.rows.length) :
    (i < L →
      rowPCell ((growth_data df).rows.getD i (0, [])).2 (c ++ suf) = .nan)
    ∧ (∀ a b : ℚ, L ≤ i →
        (colValsDF df c).getD i .nan = .num a →
        (colValsDF df c).getD (i - L) .nan = .num b → b ≠ 0 →
        rowPCell ((growth_data df).rows.getD i (0, [])).2 (c ++ suf) =
          .num ((a - b) / b * 100)) := by
  have hxslen : (colValsDF df c).length = df.rows.length := by
    unfold colValsDF
    rw [List.length_map]
  have hmemrow : df.rows.getD i (0, []) ∈ df.rows := by
    rw [List.getD_eq_getElem df.rows _ hi]
    exact List.getElem_mem hi
  have hsufnd : (suffixNames df.cols).Nodup := hok.of_append_right
  have hdisj : ∀ x ∈ suffixNames df.cols, x ∉ df.cols := by
    intro x hx hxc
    exact (List.disjoint_of_nodup_append hok) hxc hx
  have hrow : (growth_data df).rows.getD i (0, []) =
      ((df.rows.getD i (0, [])).1,
       (df.rows.getD i (0, [])).2.map (fun cl => (cl.1, ofOpt cl.2)) ++
         growthChunk df i df.cols) := by
    rw [growth_data_eq df hwf]
    show ((List.range df.rows.length).map _).getD i _ = _
    exact getD_range_map df.rows.length _ _ i hi
  have hsufmem : (c ++ suf) ∈ suffixNames df.cols := by
    rcases hL with ⟨_, hsuf⟩ | ⟨_, hsuf⟩
    · exact hsuf ▸ suffixNames_mem_wk hc
    · exact hsuf ▸ suffixNames_mem_an hc
  have hnotmem : (c ++ suf) ∉
      ((df.rows.getD i (0, [])).2.map (fun cl => (cl.1, ofOpt cl.2))).map
        (fun p => p.1) := by
    rw [List.map_map]
    rw [show (df.rows.getD i (0, [])).2.map ((fun p : String × PVal => p.1) ∘
          (fun cl : String × Option ℚ => (cl.1, ofOpt cl.2))) =
        keysOf (df.rows.getD i (0, [])).2 from rfl]
    rw [hwf _ hmemrow]
    exact hdisj _ hsufmem
  have hcell : rowPCell ((growth_data df).rows.getD i (0, [])).2 (c ++ suf) =
      (pct_change_x100 L (colValsDF df c)).getD i .nan := by
    rw [hrow]
    unfold rowPCell
    rw [lookup_append_right hnotmem]
    rcases hL with ⟨hL1, hsuf⟩ | ⟨hL1, hsuf⟩
    · subst hL1; subst hsuf
      rw [growthChunk_lookup_wk df i c df.cols hsufnd hc]
      rfl
    · subst hL1; subst hsuf
      rw [growthChunk_lookup_an df i c df.cols hsufnd hc]
      rfl
  constructor
  · intro hiL
    rw [hcell, pct_change_x100_getD L _ i (by rw [hxslen]; exact hi), if_pos hiL]
  · intro a b hge ha hb hbne
    rw [hcell, pct_change_x100_getD L _ i (by rw [hxslen]; exact hi),
        if_neg (by omega), ha, hb]
    rw [show psub (.num a) (.num b) = .num (a - b) from rfl,
        pdiv_num_num hbne, pmul_num_num]

/-- Witness for `growth_lag_spec`: on the concrete two-row table with Loans
4 then 5, the weekly growth at row 1 is 25 percent. -/
theorem growth_lag_spec_witness :
    rowPCell ((growth_data dfG).rows.getD 1 (0, [])).2 "Loans_weekly_growth" =
      .num 25 := by
  have h := (growth_lag_spec dfG (by decide) (by decide) "Loans" (by decide)
      1 "_weekly_growth" (Or.inl ⟨rfl, rfl⟩) 1 (by decide)).2
      5 4 (by decide) (by decide) (by decide) (by decide)
  have he : ("Loans" ++ "_weekly_growth" : String) = "Loans_weekly_growth" := rfl
  rw [he] at h
  rw [h]
  have h2 : (((5 : ℚ) - 4) / 4 * 100) = 25 := by norm_num
  rw [h2]


/-- Claim C9 counterexample: on a table whose last two values for "Loans"
are 0 then 5, the code emits `(5, 0)` — the percent component is the number
0, not an omitted value — contradicting the claim that percent_delta is
omitted (not emitted as any number) when the earlier value is zero. -/
theorem latest_delta_zero_prev_counterexample :
    latestMetrics dfC9 "Loans" = some (.num 5, .num 0)
    ∧ (PVal.num 0 ≠ .nan) := by
  constructor
  · simp [latestMetrics, dfC9, ofOpt, psub, pdiv, pmul, pyNeZero]
  · intro h; cases h

/-- Claim C9, amended: for every table with at least two rows and every
column present in both of the last two rows, `latestMetrics` returns the
pair `(last − previous, percent)` where the percent component is
`(last − previous) / previous * 100` when the earlier value is nonzero and
the literal number 0 (a guard substitute, not an omission) when the earlier
value is zero. -/
theorem latest_delta_spec (df : DF) (asset : String) (a b : ℚ)
    (h2 : 1 < df.rows.length) (hcol : asset ∈ df.cols)
    (hprev : (List.lookup asset
        (df.rows.getD (df.rows.length - 2) (0, [])).2).getD none = some a)
    (hlast : (List.lookup asset
        (df.rows.getD (df.rows.length - 1) (0, [])).2).getD none = some b) :
    latestMetrics df asset =
      some (.num (b - a),
        if a = 0 then .num 0 else .num ((b - a) / a * 100)) := by
  simp only [latestMetrics, if_pos h2, if_pos hcol]
  rw [hlast, hprev]
  rw [show ofOpt (some b) = PVal.num b from rfl,
      show ofOpt (some a) = PVal.num a from rfl,
      show psub (.num b) (.num a) = .num (b - a) from rfl]
  by_cases ha : a = 0
  · rw [if_pos ha]
    have hz : pyNeZero (.num a) = false := by simp [pyNeZero, ha]
    rw [hz]
    simp
  · rw [if_neg ha]
    have hz : pyNeZero (.num a) = true := by simp [pyNeZero, ha]
    rw [hz]
    simp only [if_true]
    rw [pdiv_num_num ha, pmul_num_num]

/-- Witness for `latest_delta_spec` at the concrete table with previous
value 0 and last value 5: the emitted pair is `(5, 0)`. -/
theorem latest_delta_spec_witness :
    latestMetrics dfC9 "Loans" = some (.num 5, .num 0) := by
  have h := latest_delta_spec dfC9 "Loans" 0 5 (by decide) (by decide)
    (by decide) (by decide)
  rw [h]
  have h5 : (5 : ℚ) - 0 = 5 := by norm_num
  rw [h5, if_pos rfl]


/-!  Merge-stage lemmas: the raw outer-join fold. -/

theorem obsDates_nodup {s : Series}
    (h : List.Pairwise (fun a b => a.1 < b.1) s.obs) : (obsDates s).Nodup := by
  unfold obsDates
  exact List.Pairwise.map (fun p : Nat × ℚ => p.1)
    (fun a b hab => Nat.ne_of_lt hab) h

theorem datesOf_toDF (s : Series) : datesOf (toDF s) = obsDates s := by
  unfold datesOf toDF obsDates
  rw [List.map_map]
  rfl

theorem namesOf_append (l₁ l₂ : List Series) :
    namesOf (l₁ ++ l₂) = namesOf l₁ ++ namesOf l₂ := by
  unfold namesOf
  rw [List.map_append]

theorem allDates_append : ∀ (l₁ l₂ : List Series),
    allDates (l₁ ++ l₂) = allDates l₁ ++ allDates l₂ := by
  intro l₁ l₂
  induction l₁ with
  | nil => rfl
  | cons s rest ih => simp [allDates, ih]

theorem mem_allDates {d : Nat} : ∀ {ss : List Series},
    d ∈ allDates ss ↔ ∃ s ∈ ss, d ∈ obsDates s := by
  intro ss
  induction ss with
  | nil => simp [allDates]
  | cons s rest ih => simp [allDates, ih]

theorem rowAt_toDF (s : Series) (d : Nat) :
    rowAt (toDF s) d =
      (List.lookup d s.obs).map (fun v => [(s.name, some v)]) := by
  show ((s.obs.map (fun p => (p.1, [(s.name, some p.2)]))).find?
      (fun r => r.1 == d)).map (fun r => r.2) = _
  induction s.obs with
  | nil => rfl
  | cons p rest ih =>
      by_cases he : p.1 = d
      · have hb1 : (p.1 == d) = true := by simp [he]
        have hb2 : (d == p.1) = true := by simp [he]
        simp only [List.map_cons, List.find?, List.lookup, hb1, hb2]
        rfl
      · have hb1 : (p.1 == d) = false := by simp [he]
        have hb2 : (d == p.1) = false := by simp [he]; exact fun h => he h.symm
        simp only [List.map_cons, List.find?, List.lookup, hb1, hb2]
        exact ih

theorem ext_cells (s' : Series) (d : Nat) :
    (rowAt (toDF s') d).getD ((toDF s').cols.map (fun c => (c, none))) =
      [(s'.name, List.lookup d s'.obs)] := by
  rw [rowAt_toDF]
  cases h : List.lookup d s'.obs <;> rfl

theorem hasDate_iff (df : DF) (d : Nat) :
    hasDate df d = true ↔ d ∈ datesOf df := by
  unfold hasDate datesOf
  rw [List.any_eq_true]
  constructor
  · rintro ⟨r, hr, he⟩
    have : r.1 = d := by simpa using he
    exact this ▸ List.mem_map_of_mem (fun r => r.1) hr
  · intro hm
    rcases List.mem_map.mp hm with ⟨r, hr, hd⟩
    exact ⟨r, hr, by simp [hd]⟩

theorem keys_map_const {β : Type} (cs : List String) (x : β) :
    (cs.map (fun c => (c, x))).map (fun p => p.1) = cs := by
  rw [List.map_map]
  exact List.map_id cs

theorem rawInv_single (s : Series)
    (hs : List.Pairwise (fun a b => a.1 < b.1) s.obs) :
    RawInv [s] (toDF s) := by
  refine ⟨rfl, ?_, ?_, ?_, ?_⟩
  · rw [datesOf_toDF]
    exact obsDates_nodup hs
  · intro d
    rw [datesOf_toDF]
    simp [allDates]
  · intro r hr
    rcases List.mem_map.mp hr with ⟨p, _, he⟩
    rw [← he]
    rfl
  · intro r hr s2 hs2
    rcases List.mem_map.mp hr with ⟨p, hp, he⟩
    have hs3 : s2 = s := by simpa using hs2
    subst hs3
    rw [← he]
    have hlk : List.lookup p.1 s2.obs = some p.2 :=
      lookup_eq_some_of_nodup (obsDates_nodup hs) hp
    simp [List.lookup, hlk]

theorem keysOf_append (l₁ l₂ : List (String × Option ℚ)) :
    keysOf (l₁ ++ l₂) = keysOf l₁ ++ keysOf l₂ := by
  unfold keysOf
  rw [List.map_append]

theorem rawInv_step (ss : List Series) (df : DF) (s' : Series)
    (hinv : RawInv ss df)
    (hfresh : s'.name ∉ namesOf ss)
    (hnd : (obsDates s').Nodup) :
    RawInv (ss ++ [s']) (mergeDF df (toDF s')) := by
  obtain ⟨hcols, hdates, hmemd, hkeys, hcells⟩ := hinv
  have hrows : (mergeDF df (toDF s')).rows =
      df.rows.map (fun x => (x.1, x.2 ++ [(s'.name, List.lookup x.1 s'.obs)]))
      ++ ((toDF s').rows.filter (fun x => !hasDate df x.1)).map (fun x =>
          (x.1, df.cols.map (fun c => (c, none)) ++ x.2)) := by
    show df.rows.map (fun x =>
        (x.1, x.2 ++ ((rowAt (toDF s') x.1).getD
          ((toDF s').cols.map (fun c => (c, none)))))) ++ _ = _
    congr 1
    apply List.map_congr_left
    intro x _
    rw [ext_cells]
  have hRmem : ∀ x ∈ ((toDF s').rows.filter (fun x => !hasDate df x.1)),
      (∃ p ∈ s'.obs, x = (p.1, [(s'.name, some p.2)])) ∧ x.1 ∉ datesOf df := by
    intro x hx
    rcases List.mem_filter.mp hx with ⟨hx1, hx2⟩
    constructor
    · rcases List.mem_map.mp hx1 with ⟨p, hp, he⟩
      exact ⟨p, hp, he.symm⟩
    · intro hmem
      rw [← hasDate_iff] at hmem
      simp [hmem] at hx2
  have hcolnew : (mergeDF df (toDF s')).cols = namesOf (ss ++ [s']) := by
    show df.cols ++ [s'.name] = _
    rw [namesOf_append, hcols]
    rfl
  have hLdates : (df.rows.map (fun x =>
      (x.1, x.2 ++ [(s'.name, List.lookup x.1 s'.obs)]))).map (fun r => r.1) =
      datesOf df := by
    rw [List.map_map]
    rfl
  have hRdates : ∀ d, d ∈ (((toDF s').rows.filter (fun x => !hasDate df x.1)).map
      (fun x => (x.1, df.cols.map (fun c => (c, none)) ++ x.2))).map
        (fun r => r.1) ↔ (d ∈ obsDates s' ∧ d ∉ datesOf df) := by
    intro d
    constructor
    · intro hm
      rcases List.mem_map.mp hm with ⟨y, hy, hyd⟩
      rcases List.mem_map.mp hy with ⟨x, hx, hxy⟩
      rcases (hRmem x hx).1 with ⟨p, hp, he⟩
      have hxd : x.1 = d := by rw [← hyd, ← hxy]
      refine ⟨?_, hxd ▸ (hRmem x hx).2⟩
      rw [← hxd, he]
      exact List.mem_map_of_mem (fun p : Nat × ℚ => p.1) hp
    · rintro ⟨hmo, hmd⟩
      rcases List.mem_map.mp hmo with ⟨p, hp, hpd⟩
      have hx1 : (p.1, [(s'.name, some p.2)]) ∈ (toDF s').rows :=
        List.mem_map_of_mem _ hp
      have hx2 : (p.1, [(s'.name, some p.2)]) ∈
          ((toDF s').rows.filter (fun x => !hasDate df x.1)) := by
        rw [List.mem_filter]
        refine ⟨hx1, ?_⟩
        have hnh : ¬ hasDate df p.1 = true := by
          rw [hasDate_iff, hpd]
          exact hmd
        simp [hnh]
      have hy := List.mem_map_of_mem (fun x : Nat × List (String × Option ℚ) =>
        (x.1, df.cols.map (fun c => (c, none)) ++ x.2)) hx2
      have hd2 := List.mem_map_of_mem
        (fun r : Nat × List (String × Option ℚ) => r.1) hy
      simpa [hpd] using hd2
  refine ⟨hcolnew, ?_, ?_, ?_, ?_⟩
  · -- nodup dates
    unfold datesOf
    rw [hrows, List.map_append, hLdates]
    refine List.Nodup.append hdates ?_ ?_
    · have hsub : ((((toDF s').rows.filter (fun x => !hasDate df x.1)).map
          (fun x => (x.1, df.cols.map (fun c => (c, none)) ++ x.2))).map
            (fun r => r.1)).Sublist
          (((toDF s').rows).map (fun r => r.1)) := by
        rw [List.map_map]
        have : (((toDF s').rows.filter (fun x => !hasDate df x.1))).Sublist
            ((toDF s').rows) := List.filter_sublist _
        have hsub2 := List.Sublist.map
          (fun r : Nat × List (String × Option ℚ) => r.1) this
        exact hsub2
      have hnodup : (((toDF s').rows).map (fun r => r.1)).Nodup := by
        rw [show ((toDF s').rows).map (fun r => r.1) = datesOf (toDF s') from rfl,
            datesOf_toDF]
        exact hnd
      exact hnodup.sublist hsub
    · intro d hdL hdR
      rcases (hRdates d).mp hdR with ⟨_, hnot⟩
      exact hnot hdL
  · -- date membership
    intro d
    unfold datesOf
    rw [hrows, List.map_append, List.mem_append, hLdates, hRdates d]
    rw [allDates_append, List.mem_append, hmemd d]
    have hsingle : allDates [s'] = obsDates s' := by simp [allDates]
    rw [hsingle]
    constructor
    · rintro (h | ⟨h1, _⟩)
      · exact Or.inl h
      · exact Or.inr h1
    · rintro (h | h)
      · exact Or.inl h
      · by_cases hd2 : d ∈ allDates ss
        · exact Or.inl hd2
        · exact Or.inr ⟨h, hd2⟩
  · -- keys
    intro r hr
    rw [hrows] at hr
    rw [hcolnew, namesOf_append, ← hcols]
    rcases List.mem_append.mp hr with hL | hRr
    · rcases List.mem_map.mp hL with ⟨x, hx, he⟩
      rw [← he]
      show keysOf (x.2 ++ [(s'.name, List.lookup x.1 s'.obs)]) = _
      rw [keysOf_append, hkeys x hx, hcols]
      rfl
    · rcases List.mem_map.mp hRr with ⟨x, hx, he⟩
      rcases (hRmem x hx).1 with ⟨p, _, hxe⟩
      rw [← he, hxe]
      show keysOf (df.cols.map (fun c => (c, none)) ++ [(s'.name, some p.2)]) = _
      rw [keysOf_append]
      rw [show keysOf (df.cols.map (fun c => (c, none))) = df.cols from
        keys_map_const df.cols none]
      rw [hcols]
      rfl
  · -- cell lookups
    intro r hr s hsm
    rw [hrows] at hr
    rcases List.mem_append.mp hr with hL | hRr
    · rcases List.mem_map.mp hL with ⟨x, hx, he⟩
      rw [← he]
      rcases List.mem_append.mp hsm with hs1 | hs2
      · have hk : s.name ∈ keysOf x.2 := by
          rw [hkeys x hx, hcols]
          exact List.mem_map_of_mem (fun s : Series => s.name) hs1
        show List.lookup s.name (x.2 ++ [(s'.name, List.lookup x.1 s'.obs)]) = _
        rw [lookup_append_left hk]
        exact hcells x hx s hs1
      · have hs3 : s = s' := by simpa using hs2
        subst hs3
        have hk : s.name ∉ keysOf x.2 := by
          rw [hkeys x hx, hcols]
          exact hfresh
        show List.lookup s.name (x.2 ++ [(s.name, List.lookup x.1 s.obs)]) = _
        rw [lookup_append_right hk]
        simp [List.lookup]
    · rcases List.mem_map.mp hRr with ⟨x, hx, he⟩
      rcases (hRmem x hx).1 with ⟨p, hp, hxe⟩
      have hxd : x.1 ∉ datesOf df := (hRmem x hx).2
      rw [← he, hxe]
      rcases List.mem_append.mp hsm with hs1 | hs2
      · have hk : s.name ∈ df.cols := by
          rw [hcols]
          exact List.mem_map_of_mem (fun s : Series => s.name) hs1
        show List.lookup s.name
            (df.cols.map (fun c => (c, none)) ++ [(s'.name, some p.2)]) = _
        have hkm : s.name ∈ (df.cols.map (fun c =>
            ((c : String), (none : Option ℚ)))).map (fun q => q.1) := by
          rw [keys_map_const]
          exact hk
        rw [lookup_append_left hkm, lookup_map_const hk]
        have hno : List.lookup p.1 s.obs = none := by
          apply lookup_eq_none_of_not_mem
          intro hmem
          apply hxd
          rw [hxe]
          show p.1 ∈ datesOf df
          rw [hmemd p.1, mem_allDates]
          exact ⟨s, hs1, hmem⟩
        rw [show ((p.1, [(s'.name, some p.2)]) :
            Nat × List (String × Option ℚ)).1 = p.1 from rfl, hno]
      · have hs3 : s = s' := by simpa using hs2
        subst hs3
        have hk : s.name ∉ (df.cols.map (fun c =>
            ((c : String), (none : Option ℚ)))).map (fun q => q.1) := by
          rw [keys_map_const, hcols]
          exact hfresh
        show List.lookup s.name
            (df.cols.map (fun c => (c, none)) ++ [(s.name, some p.2)]) = _
        rw [lookup_append_right hk]
        have hlk : List.lookup p.1 s.obs = some p.2 :=
          lookup_eq_some_of_nodup hnd hp
        simp [List.lookup, hlk]

theorem rawInv_fold : ∀ (rest done : List Series) (df : DF),
    RawInv done df →
    (namesOf (done ++ rest)).Nodup →
    (∀ s ∈ rest, List.Pairwise (fun a b => a.1 < b.1) s.obs) →
    RawInv (done ++ rest)
      (rest.foldl (fun acc t => mergeDF acc (toDF t)) df) := by
  intro rest
  induction rest with
  | nil =>
      intro done df hinv _ _
      simpa using hinv
  | cons s' rest2 ih =>
      intro done df hinv hnames hobs
      rw [List.foldl_cons]
      have hfresh : s'.name ∉ namesOf done := by
        intro hmem
        have hd := List.disjoint_of_nodup_append
          (by rw [← namesOf_append]; exact hnames)
        exact hd hmem (by
          show s'.name ∈ namesOf (s' :: rest2)
          exact List.mem_map_of_mem (fun s : Series => s.name)
            (List.mem_cons_self _ _))
      have hstep := rawInv_step done df s' hinv hfresh
        (obsDates_nodup (hobs s' (List.mem_cons_self _ _)))
      have hres := ih (done ++ [s']) (mergeDF df (toDF s')) hstep
        (by rw [List.append_assoc]; exact hnames)
        (fun s hs => hobs s (List.mem_cons_of_mem _ hs))
      rw [List.append_assoc] at hres
      exact hres

theorem rawInv_mergedRaw (a : Series) (rest : List Series)
    (hg : GoodInput (a :: rest)) :
    RawInv (a :: rest) (mergedRaw (a :: rest)) := by
  have h := rawInv_fold rest [a] (toDF a)
    (rawInv_single a (hg.2 a (List.mem_cons_self _ _)))
    (by simpa using hg.1)
    (fun s hs => hg.2 s (List.mem_cons_of_mem _ hs))
  simpa using h


/-!  Sorting lemmas. -/

theorem insertRow_perm (x : Nat × List (String × Option ℚ)) :
    ∀ (l : List (Nat × List (String × Option ℚ))),
      (insertRow x l).Perm (x :: l) := by
  intro l
  induction l with
  | nil => exact List.Perm.refl _
  | cons y ys ih =>
      unfold insertRow
      by_cases h : x.1 ≤ y.1
      · rw [if_pos h]
      · rw [if_neg h]
        exact (List.Perm.cons y ih).trans (List.Perm.swap x y ys)

theorem sortRows_perm :
    ∀ (l : List (Nat × List (String × Option ℚ))), (sortRows l).Perm l := by
  intro l
  induction l with
  | nil => exact List.Perm.refl _
  | cons y ys ih =>
      unfold sortRows
      exact (insertRow_perm y (sortRows ys)).trans (List.Perm.cons y ih)

theorem insertRow_sorted (x : Nat × List (String × Option ℚ)) :
    ∀ (l : List (Nat × List (String × Option ℚ))),
      List.Pairwise (fun a b => a.1 ≤ b.1) l →
      List.Pairwise (fun a b => a.1 ≤ b.1) (insertRow x l) := by
  intro l
  induction l with
  | nil =>
      intro _
      simp [insertRow]
  | cons y ys ih =>
      intro hp
      unfold insertRow
      by_cases h : x.1 ≤ y.1
      · rw [if_pos h]
        refine List.Pairwise.cons ?_ hp
        intro z hz
        rcases List.mem_cons.mp hz with he | hzys
        · rw [he]; exact h
        · exact le_trans h ((List.pairwise_cons.mp hp).1 z hzys)
      · rw [if_neg h]
        have hyx : y.1 ≤ x.1 := le_of_not_le h
        refine List.Pairwise.cons ?_ (ih (List.pairwise_cons.mp hp).2)
        intro z hz
        have hz2 : z ∈ x :: ys := (insertRow_perm x ys).mem_iff.mp hz
        rcases List.mem_cons.mp hz2 with he | hzys
        · rw [he]; exact hyx
        · exact (List.pairwise_cons.mp hp).1 z hzys

theorem sortRows_sorted :
    ∀ (l : List (Nat × List (String × Option ℚ))),
      List.Pairwise (fun a b => a.1 ≤ b.1) (sortRows l) := by
  intro l
  induction l with
  | nil => exact List.Pairwise.nil
  | cons y ys ih =>
      unfold sortRows
      exact insertRow_sorted y (sortRows ys) ih

theorem sorted_strict {l : List (Nat × List (String × Option ℚ))}
    (hs : List.Pairwise (fun a b => a.1 ≤ b.1) l)
    (hd : (l.map (fun r => r.1)).Nodup) :
    List.Pairwise (fun a b => a.1 < b.1) l := by
  have hne : List.Pairwise (fun (a b : Nat × List (String × Option ℚ)) =>
      a.1 ≠ b.1) l := List.pairwise_map.mp hd
  exact (hs.and hne).imp (fun h => lt_of_le_of_ne h.1 h.2)

/-!  Last-observation lemmas. -/

theorem lastLT_none {obs : List (Nat × ℚ)} {t : Nat}
    (h : ∀ p ∈ obs, ¬ p.1 < t) : lastLT obs t = none := by
  induction obs with
  | nil => rfl
  | cons p rest ih =>
      unfold lastLT
      rw [if_neg (h p (List.mem_cons_self _ _))]
      exact ih (fun q hq => h q (List.mem_cons_of_mem _ hq))

theorem lastLE_none {obs : List (Nat × ℚ)} {t : Nat}
    (h : ∀ p ∈ obs, t < p.1) : lastLE obs t = none := by
  induction obs with
  | nil => rfl
  | cons p rest ih =>
      unfold lastLE
      rw [if_neg (Nat.not_le_of_lt (h p (List.mem_cons_self _ _)))]
      exact ih (fun q hq => h q (List.mem_cons_of_mem _ hq))

theorem lastLE_eq_lookup_lastLT :
    ∀ (obs : List (Nat × ℚ)), List.Pairwise (fun a b => a.1 < b.1) obs →
    ∀ (d : Nat),
      lastLE obs d =
        if (List.lookup d obs).isSome then List.lookup d obs
        else lastLT obs d := by
  intro obs
  induction obs with
  | nil => intro _ d; rfl
  | cons p rest ih =>
      intro hs d
      have htail : ∀ q ∈ rest, p.1 < q.1 := (List.pairwise_cons.mp hs).1
      have hstail := (List.pairwise_cons.mp hs).2
      by_cases hle : p.1 ≤ d
      · by_cases heq : p.1 = d
        · -- lookup finds the head
          have hb : (d == p.1) = true := by simp [heq]
          have hrest : lastLE rest d = none :=
            lastLE_none (fun q hq => heq ▸ htail q hq)
          unfold lastLE
          rw [if_pos hle, hrest]
          simp [List.lookup, hb]
        · have hlt : p.1 < d := lt_of_le_of_ne hle heq
          have hb : (d == p.1) = false := by
            simp
            exact fun h => heq h.symm
          unfold lastLE lastLT
          rw [if_pos hle, if_pos hlt]
          simp only [List.lookup, hb]
          rw [ih hstail d]
          cases hlk : List.lookup d rest with
          | some v => simp [hlk]
          | none =>
              simp only [hlk, Option.isSome_none, Bool.false_eq_true, if_false]
      · -- d < p.1 : everything is none
        have hdp : d < p.1 := Nat.lt_of_not_le hle
        have hb : (d == p.1) = false := by
          simp
          omega
        have h1 : lastLE rest d = none :=
          lastLE_none (fun q hq => lt_trans hdp (htail q hq))
        have h2 : lastLT rest d = none :=
          lastLT_none (fun q hq => by
            have := htail q hq
            omega)
        have h3 : List.lookup d rest = none := by
          apply lookup_eq_none_of_not_mem
          intro hm
          rcases List.mem_map.mp hm with ⟨q, hq, hqd⟩
          have := htail q hq
          omega
        unfold lastLE lastLT
        rw [if_neg hle, if_neg (by omega : ¬ p.1 < d), h1, h2]
        simp [List.lookup, hb, h3]

theorem lastLT_gap :
    ∀ (obs : List (Nat × ℚ)) (d₀ d₁ : Nat), d₀ < d₁ →
    (∀ p ∈ obs, ¬ (d₀ < p.1 ∧ p.1 < d₁)) →
    lastLT obs d₁ = lastLE obs d₀ := by
  intro obs
  induction obs with
  | nil => intro d₀ d₁ _ _; rfl
  | cons p rest ih =>
      intro d₀ d₁ hlt hgap
      have htl := ih d₀ d₁ hlt (fun q hq => hgap q (List.mem_cons_of_mem _ hq))
      by_cases h : p.1 ≤ d₀
      · unfold lastLT lastLE
        rw [if_pos (lt_of_le_of_lt h hlt), if_pos h, htl]
      · have hnd1 : ¬ p.1 < d₁ := by
          intro hp1
          exact h (Nat.le_of_not_lt
            (fun hgt => hgap p (List.mem_cons_self _ _) ⟨hgt, hp1⟩))
        unfold lastLT lastLE
        rw [if_neg hnd1, if_neg h, htl]

/-!  Forward-fill lemmas. -/

theorem keysOf_combine :
    ∀ (cells prev : List (String × Option ℚ)),
      keysOf cells = keysOf prev →
      keysOf (combineCells cells prev) = keysOf cells := by
  intro cells
  induction cells with
  | nil => intro prev _; rfl
  | cons c cr ih =>
      intro prev h
      cases prev with
      | nil => cases h
      | cons p pr =>
          have h2 : keysOf cr = keysOf pr := by
            have := congrArg List.tail h
            simpa [keysOf] using this
          show keysOf ((c.1, if c.2.isSome then c.2 else p.2) ::
            combineCells cr pr) = _
          unfold keysOf at *
          simp only [List.map_cons]
          rw [show (combineCells cr pr).map (fun c => c.1) =
            cr.map (fun c => c.1) from ih pr h2]

theorem lookup_combine (k : String) :
    ∀ (cells prev : List (String × Option ℚ)),
      keysOf cells = keysOf prev →
      List.lookup k (combineCells cells prev) =
        match List.lookup k cells, List.lookup k prev with
        | some a, some b => some (if a.isSome then a else b)
        | _, _ => none := by
  intro cells
  induction cells with
  | nil =>
      intro prev h
      have : prev = [] := by
        cases prev with
        | nil => rfl
        | cons p pr => cases h
      subst this
      rfl
  | cons c cr ih =>
      intro prev h
      cases prev with
      | nil => cases h
      | cons p pr =>
          have hk1 : c.1 = p.1 := by
            have := congrArg List.head? h
            simpa [keysOf] using this
          have h2 : keysOf cr = keysOf pr := by
            have := congrArg List.tail h
            simpa [keysOf] using this
          show List.lookup k ((c.1, if c.2.isSome then c.2 else p.2) ::
            combineCells cr pr) = _
          by_cases hb : k == c.1
          · have hb2 : (k == p.1) = true := by rw [← hk1]; exact hb
            simp only [List.lookup, hb, hb2]
          · have hb2 : (k == p.1) = false := by
              rw [← hk1]
              simpa using hb
            have hbf : (k == c.1) = false := by simpa using hb
            simp only [List.lookup, hbf, hb2]
            exact ih pr h2

theorem ffill_dates :
    ∀ (rows : List (Nat × List (String × Option ℚ)))
      (prev : List (String × Option ℚ)),
      (ffillRows prev rows).map (fun r => r.1) = rows.map (fun r => r.1) := by
  intro rows
  induction rows with
  | nil => intro prev; rfl
  | cons x xs ih =>
      intro prev
      show ((x.1, combineCells x.2 prev) ::
        ffillRows (combineCells x.2 prev) xs).map (fun r => r.1) = _
      simp only [List.map_cons]
      rw [ih (combineCells x.2 prev)]


theorem ffill_keys :
    ∀ (rows : List (Nat × List (String × Option ℚ)))
      (prev : List (String × Option ℚ)),
      (∀ r ∈ rows, keysOf r.2 = keysOf prev) →
      ∀ r ∈ ffillRows prev rows, keysOf r.2 = keysOf prev := by
  intro rows
  induction rows with
  | nil => intro prev _ r hr; cases hr
  | cons x xs ih =>
      intro prev hk r hr
      have hk0 := hk x (List.mem_cons_self _ _)
      have hc : keysOf (combineCells x.2 prev) = keysOf prev := by
        rw [keysOf_combine x.2 prev hk0, hk0]
      rcases List.mem_cons.mp hr with he | ht
      · rw [he]
        exact hc
      · have hrest := ih (combineCells x.2 prev)
          (fun r2 hr2 => by
            rw [hk r2 (List.mem_cons_of_mem _ hr2), ← hc]) r ht
        rw [hrest, hc]

theorem head_min_dates {l : List (Nat × List (String × Option ℚ))}
    (hs : List.Pairwise (fun a b => a.1 ≤ b.1) l) {d : Nat}
    {cs : List (String × Option ℚ)}
    (hh : l.head? = some (d, cs)) : ∀ q ∈ l.map (fun r => r.1), d ≤ q := by
  cases l with
  | nil => cases hh
  | cons r1 rs =>
      have hr1 : r1 = (d, cs) := by simpa using hh
      intro q hq
      rcases List.mem_map.mp hq with ⟨r, hr, hrq⟩
      rcases List.mem_cons.mp hr with he | ht
      · rw [← hrq, he, hr1]
      · have hlt := (List.pairwise_cons.mp hs).1 r ht
        rw [hr1] at hlt
        omega

theorem ffill_find_lookup (nm : String) (obs : List (Nat × ℚ))
    (hobs : List.Pairwise (fun a b => a.1 < b.1) obs) :
    ∀ (rows : List (Nat × List (String × Option ℚ)))
      (prev : List (String × Option ℚ)),
      List.Pairwise (fun a b => a.1 < b.1) rows →
      (∀ r ∈ rows, keysOf r.2 = keysOf prev) →
      (∀ r ∈ rows, List.lookup nm r.2 = some (List.lookup r.1 obs)) →
      (∀ d cs, rows.head? = some (d, cs) →
        List.lookup nm prev = some (lastLT obs d)
        ∧ ∀ p ∈ obs, p.1 ∈ rows.map (fun r => r.1) ∨ p.1 < d) →
      ∀ t cs₀, (t, cs₀) ∈ rows →
        ∃ cells, List.find? (fun r => r.1 == t) (ffillRows prev rows) =
            some (t, cells)
          ∧ List.lookup nm cells = some (lastLE obs t) := by
  intro rows
  induction rows with
  | nil => intro prev _ _ _ _ t cs₀ h; cases h
  | cons hd rs ih =>
      intro prev hsort hkeys hcells hprev t cs₀ hmem
      have hh := hprev hd.1 hd.2 rfl
      have hkey0 := hkeys hd (List.mem_cons_self _ _)
      have hcell0 := hcells hd (List.mem_cons_self _ _)
      have hlkc : List.lookup nm (combineCells hd.2 prev) =
          some (if (List.lookup hd.1 obs).isSome then List.lookup hd.1 obs
                else lastLT obs hd.1) := by
        rw [lookup_combine nm hd.2 prev hkey0, hcell0, hh.1]
      have hlast0 : some (lastLE obs hd.1) =
          List.lookup nm (combineCells hd.2 prev) := by
        rw [hlkc, lastLE_eq_lookup_lastLT obs hobs hd.1]
      rcases List.mem_cons.mp hmem with heq | htail
      · have ht : hd.1 = t := by rw [← heq]
        refine ⟨combineCells hd.2 prev, ?_, ?_⟩
        · show List.find? (fun r => r.1 == t)
            ((hd.1, combineCells hd.2 prev) ::
              ffillRows (combineCells hd.2 prev) rs) = _
          have hb : (hd.1 == t) = true := by simp [ht]
          simp only [List.find?, hb]
          rw [ht]
        · rw [← hlast0, ht]
      · have hd0lt : ∀ r ∈ rs, hd.1 < r.1 := (List.pairwise_cons.mp hsort).1
        have htlt : hd.1 < t := hd0lt (t, cs₀) htail
        have hstail : List.Pairwise (fun a b => a.1 < b.1) rs :=
          (List.pairwise_cons.mp hsort).2
        have harg : ∀ d cs, rs.head? = some (d, cs) →
            List.lookup nm (combineCells hd.2 prev) = some (lastLT obs d)
            ∧ ∀ p ∈ obs, p.1 ∈ rs.map (fun r => r.1) ∨ p.1 < d := by
          intro d cs hhead
          have hge : ∀ q ∈ rs.map (fun r => r.1), d ≤ q :=
            head_min_dates (hstail.imp (fun h => Nat.le_of_lt h)) hhead
          have hdmem : (d, cs) ∈ rs := by
            cases rs with
            | nil => cases hhead
            | cons r1 rs2 =>
                have hr1 : r1 = (d, cs) := by simpa using hhead
                rw [← hr1]
                exact List.mem_cons_self _ _
          have hd1d : hd.1 < d := hd0lt (d, cs) hdmem
          constructor
          · rw [← hlast0]
            have hgap : ∀ p ∈ obs, ¬ (hd.1 < p.1 ∧ p.1 < d) := by
              rintro p hp ⟨hgt, hlt⟩
              rcases hh.2 p hp with hin | hlt0
              · have hin2 : p.1 = hd.1 ∨ p.1 ∈ rs.map (fun r => r.1) := by
                  simpa using hin
                rcases hin2 with he | hm2
                · omega
                · have := hge p.1 hm2
                  omega
              · omega
            rw [lastLT_gap obs hd.1 d hd1d hgap]
          · intro p hp
            rcases hh.2 p hp with hin | hlt0
            · have hin2 : p.1 = hd.1 ∨ p.1 ∈ rs.map (fun r => r.1) := by
                simpa using hin
              rcases hin2 with he | hm2
              · exact Or.inr (by omega)
              · exact Or.inl hm2
            · exact Or.inr (by omega)
        have hkeys2 : ∀ r ∈ rs, keysOf r.2 = keysOf (combineCells hd.2 prev) := by
          intro r hr
          rw [keysOf_combine hd.2 prev hkey0, hkey0]
          exact hkeys r (List.mem_cons_of_mem _ hr)
        have hcells2 : ∀ r ∈ rs,
            List.lookup nm r.2 = some (List.lookup r.1 obs) :=
          fun r hr => hcells r (List.mem_cons_of_mem _ hr)
        obtain ⟨cells, hfind, hlook⟩ :=
          ih (combineCells hd.2 prev) hstail hkeys2 hcells2 harg t cs₀ htail
        refine ⟨cells, ?_, hlook⟩
        show List.find? (fun r => r.1 == t)
          ((hd.1, combineCells hd.2 prev) ::
            ffillRows (combineCells hd.2 prev) rs) = _
        have hb : (hd.1 == t) = false := by
          simp
          omega
        simp only [List.find?, hb]
        exact hfind

theorem find?_name_eq : ∀ (ss : List Series), (namesOf ss).Nodup →
    ∀ {s : Series}, s ∈ ss → ss.find? (fun x => x.name == s.name) = some s := by
  intro ss
  induction ss with
  | nil => intro _ s hs; cases hs
  | cons a rest ih =>
      intro hnd s hs
      have hnd2 : (a.name :: namesOf rest).Nodup := hnd
      rcases List.mem_cons.mp hs with he | ht
      · subst he
        have hb : (s.name == s.name) = true := by simp
        simp only [List.find?, hb]
      · have hna : a.name ∉ namesOf rest := (List.nodup_cons.mp hnd2).1
        have hne : (a.name == s.name) = false := by
          simp
          intro he2
          exact hna (he2 ▸ List.mem_map_of_mem (fun s : Series => s.name) ht)
        simp only [List.find?, hne]
        exact ih (List.nodup_cons.mp hnd2).2 ht

theorem obsOfName_eq {ss : List Series} (hnd : (namesOf ss).Nodup)
    {s : Series} (hs : s ∈ ss) : obsOfName ss s.name = s.obs := by
  unfold obsOfName
  rw [find?_name_eq ss hnd hs]
  rfl

theorem obsOfName_none {ss : List Series} {nm : String}
    (h : ∀ s ∈ ss, ¬ s.name = nm) : obsOfName ss nm = [] := by
  unfold obsOfName
  rw [List.find?_eq_none.mpr (by
    intro s hs
    simp
    exact h s hs)]
  rfl


theorem fed_data_cell (ss : List Series) (hg : GoodInput ss) (t : Nat)
    (nm : String) :
    getCell (fed_data ss) t nm =
      if t ∈ allDates ss then lastLE (obsOfName ss nm) t else none := by
  cases ss with
  | nil =>
      rw [if_neg (by simp [allDates])]
      rfl
  | cons a rest =>
      obtain ⟨hcols, hdates, hmemd, hkeys, hcells⟩ := rawInv_mergedRaw a rest hg
      have hperm := sortRows_perm (mergedRaw (a :: rest)).rows
      have hsorted := sortRows_sorted (mergedRaw (a :: rest)).rows
      have hdperm : ((sortRows (mergedRaw (a :: rest)).rows).map
          (fun r => r.1)).Perm (datesOf (mergedRaw (a :: rest))) :=
        hperm.map (fun r => r.1)
      have hdnodup : ((sortRows (mergedRaw (a :: rest)).rows).map
          (fun r => r.1)).Nodup := hdperm.nodup_iff.mpr hdates
      have hstrict := sorted_strict hsorted hdnodup
      have hkeys2 : ∀ r ∈ sortRows (mergedRaw (a :: rest)).rows,
          keysOf r.2 = keysOf ((mergedRaw (a :: rest)).cols.map
            (fun c => (c, none))) := by
        intro r hr
        rw [show keysOf ((mergedRaw (a :: rest)).cols.map (fun c => (c, none))) =
            (mergedRaw (a :: rest)).cols from keys_map_const _ none]
        exact hkeys r (hperm.mem_iff.mp hr)
      have hgetcell : getCell (fed_data (a :: rest)) t nm =
          match List.find? (fun r => r.1 == t)
            (ffillRows ((mergedRaw (a :: rest)).cols.map (fun c => (c, none)))
              (sortRows (mergedRaw (a :: rest)).rows)) with
          | none => none
          | some r => match List.lookup nm r.2 with
                      | none => none
                      | some v => v := rfl
      by_cases ht : t ∈ allDates (a :: rest)
      · rw [if_pos ht]
        have htd : t ∈ (sortRows (mergedRaw (a :: rest)).rows).map
            (fun r => r.1) := hdperm.mem_iff.mpr ((hmemd t).mpr ht)
        by_cases hnm : ∃ s ∈ (a :: rest), s.name = nm
        · obtain ⟨s, hsmem, hsname⟩ := hnm
          subst hsname
          rw [obsOfName_eq hg.1 hsmem]
          rcases List.mem_map.mp htd with ⟨r0, hr0, hr0d⟩
          have hrow : (t, r0.2) ∈ sortRows (mergedRaw (a :: rest)).rows := by
            rw [← hr0d]
            exact hr0
          have hcells2 : ∀ r ∈ sortRows (mergedRaw (a :: rest)).rows,
              List.lookup s.name r.2 = some (List.lookup r.1 s.obs) :=
            fun r hr => hcells r (hperm.mem_iff.mp hr) s hsmem
          have hsn : s.name ∈ (mergedRaw (a :: rest)).cols := by
            rw [hcols]
            exact List.mem_map_of_mem (fun s : Series => s.name) hsmem
          have hprev : ∀ d cs,
              (sortRows (mergedRaw (a :: rest)).rows).head? = some (d, cs) →
              List.lookup s.name
                ((mergedRaw (a :: rest)).cols.map (fun c => (c, none))) =
                some (lastLT s.obs d)
              ∧ ∀ p ∈ s.obs, p.1 ∈
                  (sortRows (mergedRaw (a :: rest)).rows).map (fun r => r.1)
                ∨ p.1 < d := by
            intro d cs hhead
            have hmin := head_min_dates hsorted hhead
            have hobsmem : ∀ p ∈ s.obs, p.1 ∈
                (sortRows (mergedRaw (a :: rest)).rows).map (fun r => r.1) := by
              intro p hp
              apply hdperm.mem_iff.mpr
              apply (hmemd p.1).mpr
              exact mem_allDates.mpr ⟨s, hsmem,
                List.mem_map_of_mem (fun p : Nat × ℚ => p.1) hp⟩
            constructor
            · rw [lookup_map_const hsn]
              have hnone : lastLT s.obs d = none :=
                lastLT_none (fun p hp => by
                  have := hmin p.1 (hobsmem p hp)
                  omega)
              rw [hnone]
            · intro p hp
              exact Or.inl (hobsmem p hp)
          obtain ⟨cells, hfind, hlook⟩ := ffill_find_lookup s.name s.obs
            (hg.2 s hsmem) (sortRows (mergedRaw (a :: rest)).rows)
            ((mergedRaw (a :: rest)).cols.map (fun c => (c, none)))
            hstrict hkeys2 hcells2 hprev t r0.2 hrow
          rw [hgetcell, hfind]
          show (match List.lookup s.name cells with
            | none => none
            | some v => v) = lastLE s.obs t
          rw [hlook]
        · push_neg at hnm
          rw [obsOfName_none hnm]
          rw [show lastLE [] t = (none : Option ℚ) from rfl]
          rw [hgetcell]
          cases hopt : List.find? (fun r => r.1 == t)
              (ffillRows ((mergedRaw (a :: rest)).cols.map (fun c => (c, none)))
                (sortRows (mergedRaw (a :: rest)).rows)) with
          | none => rfl
          | some r2 =>
              have hr2mem := List.mem_of_find?_eq_some hopt
              have hk2 := ffill_keys (sortRows (mergedRaw (a :: rest)).rows)
                ((mergedRaw (a :: rest)).cols.map (fun c => (c, none)))
                hkeys2 r2 hr2mem
              have hnotin : nm ∉ keysOf r2.2 := by
                rw [hk2, show keysOf ((mergedRaw (a :: rest)).cols.map
                    (fun c => (c, none))) = (mergedRaw (a :: rest)).cols from
                  keys_map_const _ none, hcols]
                intro hmemn
                rcases List.mem_map.mp hmemn with ⟨s, hsm, hsn⟩
                exact hnm s hsm hsn
              show (match List.lookup nm r2.2 with
                | none => none
                | some v => v) = none
              rw [lookup_eq_none_of_not_mem hnotin]
      · rw [if_neg ht]
        rw [hgetcell]
        have hnone : List.find? (fun r => r.1 == t)
            (ffillRows ((mergedRaw (a :: rest)).cols.map (fun c => (c, none)))
              (sortRows (mergedRaw (a :: rest)).rows)) = none := by
          rw [List.find?_eq_none]
          intro x hx hbx
          have hx1 : x.1 = t := by simpa using hbx
          have hxm : x.1 ∈ (ffillRows ((mergedRaw (a :: rest)).cols.map
              (fun c => (c, none))) (sortRows (mergedRaw (a :: rest)).rows)).map
              (fun r => r.1) :=
            List.mem_map_of_mem (fun r => r.1) hx
          rw [ffill_dates] at hxm
          have hxd : x.1 ∈ datesOf (mergedRaw (a :: rest)) :=
            hdperm.mem_iff.mp hxm
          exact ht (hx1 ▸ (hmemd x.1).mp hxd)
        rw [hnone]


/-- Claim C4: forward-fill invariant of the merged table — for every series
`s` of a well-formed batch and every row timestamp `t`, the cell for `s`
equals `s`\'s most recently reported observation value at or before `t`
(`lastLE`), and when `s` has no observation at or before `t` the cell is
absent, so no row earlier than `s`\'s first observation carries a value for
`s`. -/
theorem merged_forward_fill (ss : List Series) (hg : GoodInput ss)
    (s : Series) (hs : s ∈ ss) (t : Nat) (ht : t ∈ allDates ss) :
    getCell (fed_data ss) t s.name = lastLE s.obs t
    ∧ ((∀ p ∈ s.obs, t < p.1) → getCell (fed_data ss) t s.name = none) := by
  have h := fed_data_cell ss hg t s.name
  rw [if_pos ht, obsOfName_eq hg.1 hs] at h
  refine ⟨h, fun hnone => ?_⟩
  rw [h]
  exact lastLE_none hnone

/-- Witness for `merged_forward_fill`: series X observed at weeks 1 and 3
is forward-filled to value 10 at week 2. -/
theorem merged_forward_fill_witness :
    getCell (fed_data ssX) 2 "X" = some 10 := by
  have h := (merged_forward_fill ssX ⟨by decide, by decide⟩
    ⟨"X", [(1, 10), (3, 30)]⟩ (by decide) 2 (by decide)).1
  rw [h]
  decide

/-- Claim C3: the merge stage is order-independent — permuting the fetched
series yields a merged/sorted/forward-filled table that is identical as a
mapping from (timestamp, series name) to value-or-absent. -/
theorem merge_order_independent (ss ss2 : List Series) (hg : GoodInput ss)
    (hperm : ss.Perm ss2) (t : Nat) (nm : String) :
    getCell (fed_data ss) t nm = getCell (fed_data ss2) t nm := by
  have hg2 : GoodInput ss2 := by
    refine ⟨?_, ?_⟩
    · exact (hperm.map (fun s : Series => s.name)).nodup_iff.mp hg.1
    · intro s hs
      exact hg.2 s (hperm.mem_iff.mpr hs)
  rw [fed_data_cell ss hg t nm, fed_data_cell ss2 hg2 t nm]
  have hd : t ∈ allDates ss ↔ t ∈ allDates ss2 := by
    rw [mem_allDates, mem_allDates]
    constructor
    · rintro ⟨s, hs, hds⟩
      exact ⟨s, hperm.mem_iff.mp hs, hds⟩
    · rintro ⟨s, hs, hds⟩
      exact ⟨s, hperm.mem_iff.mpr hs, hds⟩
  have ho : obsOfName ss nm = obsOfName ss2 nm := by
    by_cases hex : ∃ s ∈ ss, s.name = nm
    · obtain ⟨s, hs, hn⟩ := hex
      subst hn
      rw [obsOfName_eq hg.1 hs, obsOfName_eq hg2.1 (hperm.mem_iff.mp hs)]
    · push_neg at hex
      rw [obsOfName_none hex,
          obsOfName_none (fun s hs => hex s (hperm.mem_iff.mpr hs))]
  by_cases h : t ∈ allDates ss
  · rw [if_pos h, if_pos (hd.mp h), ho]
  · rw [if_neg h, if_neg (fun h2 => h (hd.mpr h2))]

/-- Witness for `merge_order_independent`: swapping the two concrete series
X and Y leaves the merged cell at week 2 for Y unchanged. -/
theorem merge_order_independent_witness :
    getCell (fed_data ssX) 2 "Y" = getCell (fed_data ssXsw) 2 "Y" := by
  have hperm : ssX.Perm ssXsw := by
    show ([⟨"X", [(1, 10), (3, 30)]⟩, ⟨"Y", [(1, 100), (2, 200)]⟩] :
        List Series).Perm
      [⟨"Y", [(1, 100), (2, 200)]⟩, ⟨"X", [(1, 10), (3, 30)]⟩]
    exact List.Perm.swap _ _ _
  exact merge_order_independent ssX ssXsw ⟨by decide, by decide⟩ hperm 2 "Y"


end FedDashboard
